import Mathlib

/-!
Verification of the LiteMark.js markdown-to-HTML conversion pipeline
(src/source/LiteMark.js, the function markdownToHtml and its helpers).

The JavaScript source is shallowly embedded over lists of characters:
every regex-driven rewriting pass of the source is translated into an
explicit scanner with the same matching semantics, and the one point of
self-recursion (the blockquote pass re-entering the whole pipeline) is
mediated by a fuel parameter so that every definition is a computable,
structurally recursive Lean function.
-/

set_option maxRecDepth 100000

namespace LiteMark

/-- Strings are modelled as lists of characters (JS strings are sequences
of UTF-16 units; all inputs considered here are plain characters). -/
abbrev Str := List Char

/-- Shorthand turning a Lean string literal into the character-list model. -/
def lit (s : String) : Str := s.data

/-- The whitespace class of JavaScript regexes and of String.prototype.trim
(space, tab, line terminators, form/vertical feed, NBSP, BOM). -/
def isJsWs (c : Char) : Bool :=
  c = ' ' || c = '\t' || c = '\n' || c = '\r' ||
  c = Char.ofNat 11 || c = Char.ofNat 12 ||
  c = Char.ofNat 0xA0 || c = Char.ofNat 0xFEFF ||
  c = Char.ofNat 0x2028 || c = Char.ofNat 0x2029

/-- The word-character class of JS regexes: [A-Za-z0-9_]. -/
def isWordChar (c : Char) : Bool :=
  (('a' ≤ c && c ≤ 'z') || ('A' ≤ c && c ≤ 'Z') ||
   ('0' ≤ c && c ≤ '9') || c = '_')

/-- ASCII letter, as matched by [a-zA-Z]. -/
def isAsciiLetter (c : Char) : Bool :=
  ('a' ≤ c && c ≤ 'z') || ('A' ≤ c && c ≤ 'Z')

/-- ASCII digit, as matched by the JS regex class backslash-d. -/
def isDigit (c : Char) : Bool := '0' ≤ c && c ≤ '9'

/-- Leading-whitespace removal, as in String.prototype.trimStart. -/
def jsTrimStart (l : Str) : Str := l.dropWhile isJsWs

/-- Trailing-whitespace removal, as in String.prototype.trimEnd. -/
def jsTrimEnd (l : Str) : Str := (l.reverse.dropWhile isJsWs).reverse

/-- String.prototype.trim. -/
def jsTrim (l : Str) : Str := jsTrimEnd (jsTrimStart l)

/-- JS String.prototype.split on a newline: always returns at least one
piece, and a trailing separator yields a trailing empty piece. -/
def splitLines (l : Str) : List Str :=
  match l with
  | [] => [[]]
  | c :: rest =>
    let tail := splitLines rest
    if c = '\n' then [] :: tail
    else match tail with
         | [] => [[c]]
         | t :: ts => (c :: t) :: ts

/-- Array.prototype.join with a newline separator. -/
def joinNL (ls : List Str) : Str := (ls.intersperse (lit "\n")).flatten

/-- JS String.prototype.split on an arbitrary single character. -/
def splitOnChar (sep : Char) (l : Str) : List Str :=
  match l with
  | [] => [[]]
  | c :: rest =>
    let tail := splitOnChar sep rest
    if c = sep then [] :: tail
    else match tail with
         | [] => [[c]]
         | t :: ts => (c :: t) :: ts

/-- Finds the first occurrence of a (nonempty) pattern, returning the text
before it and the text after it. -/
def findSub (pat : Str) : Str → Option (Str × Str)
  | [] => none
  | c :: rest =>
    if pat.isPrefixOf (c :: rest) then some ([], (c :: rest).drop pat.length)
    else match findSub pat rest with
         | some (b, a) => some (c :: b, a)
         | none => none

/-- Whether the pattern occurs anywhere in the text. -/
def containsSub (pat : Str) (l : Str) : Bool :=
  (findSub pat l).isSome

/-- String.prototype.replaceAll with a plain-text pattern and a replacement
that contains no dollar sign (the only use in the source substitutes a
single escaped punctuation character, which is never a dollar sign). -/
def replaceAllSub (pat repl : Str) : Nat → Str → Str
  | 0, l => l
  | _ + 1, [] => []
  | fuel + 1, c :: rest =>
    if pat.isPrefixOf (c :: rest) ∧ pat ≠ [] then
      repl ++ replaceAllSub pat repl fuel ((c :: rest).drop pat.length)
    else c :: replaceAllSub pat repl fuel rest

/-- Substitution of dollar patterns in a string replacement argument of
String.prototype.replace: literal dollars, the matched text, and the
portions before and after the match. -/
def dollarSub (matched before after : Str) : Str → Str
  | [] => []
  | c :: r =>
    if c = '$' then
      match r with
      | '$' :: r2 => '$' :: dollarSub matched before after r2
      | '&' :: r2 => matched ++ dollarSub matched before after r2
      | '`' :: r2 => before ++ dollarSub matched before after r2
      | '\'' :: r2 => after ++ dollarSub matched before after r2
      | r2 => '$' :: dollarSub matched before after r2
    else c :: dollarSub matched before after r

/-- String.prototype.replace with a plain-text pattern (first occurrence
only) and a string replacement, including JS dollar-pattern handling. -/
def jsReplaceOnce (l pat repl : Str) : Str :=
  match findSub pat l with
  | some (before, after) => before ++ dollarSub pat before after repl ++ after
  | none => l

/-- The escapeHtml helper of the source: escapes angle brackets and quotes
always, and an ampersand only when it is not immediately followed by one
or more ASCII letters and a semicolon (the entity-like lookahead). -/
def entityAhead (rest : Str) : Bool :=
  let w := rest.takeWhile isAsciiLetter
  w ≠ [] && (rest.drop w.length).head? = some ';'

/-- Translation of the escapeHtml function (regex with the negative
lookahead for entity-like ampersands). -/
def escapeHtml : Str → Str
  | [] => []
  | c :: rest =>
    if c = '&' then
      if entityAhead rest then '&' :: escapeHtml rest
      else lit "&amp;" ++ escapeHtml rest
    else if c = '<' then lit "&lt;" ++ escapeHtml rest
    else if c = '>' then lit "&gt;" ++ escapeHtml rest
    else if c = '"' then lit "&quot;" ++ escapeHtml rest
    else if c = '\'' then lit "&#39;" ++ escapeHtml rest
    else c :: escapeHtml rest

/-- The punctuation set recognized by the escape pass of the source. -/
def escChars : Str :=
  ['\\', '`', '*', '_', '{', '}', '[', ']', '(', ')',
   '#', '+', '-', '.', '!', '~', '>']

/-- Placeholder inserted for an escaped character. -/
def escapedPh (n : Nat) : Str :=
  lit "<!--escaped_" ++ lit (toString n) ++ lit "-->"

/-- The escape pass: a backslash followed by a recognized punctuation
character becomes a placeholder (recording the character); a backslash
followed by anything else is left untouched, and scanning resumes at
the following character. -/
def escapePassGo : Str → Nat → Str × List (Str × Char)
  | [], _ => ([], [])
  | c :: rest, n =>
    if c = '\\' then
      match rest with
      | [] => (['\\'], [])
      | c2 :: rest2 =>
        if escChars.contains c2 then
          let r := escapePassGo rest2 (n + 1)
          (escapedPh n ++ r.1, (escapedPh n, c2) :: r.2)
        else
          let r := escapePassGo (c2 :: rest2) n
          ('\\' :: r.1, r.2)
    else
      let r := escapePassGo rest n
      (c :: r.1, r.2)

/-- Placeholder inserted for a fenced code block. -/
def codePh (n : Nat) : Str :=
  lit "<!--codeblock_" ++ lit (toString n) ++ lit "-->"

/-- Placeholder inserted for an inline code span. -/
def inlinePh (n : Nat) : Str :=
  lit "<!--inlinecode_" ++ lit (toString n) ++ lit "-->"

/-- Number of leading space characters of a line (the regex of leading
spaces used for dedenting fenced code). -/
def leadingSpaces (l : Str) : Nat := (l.takeWhile (fun c => c = ' ')).length

/-- A line whose trim is empty (blank line). -/
def isBlankLine (l : Str) : Bool := jsTrim l = []

/-- Removes blank lines from both ends of a line list (the two while
loops shifting and popping blank lines of a fenced block). -/
def dropBlankEnds (ls : List Str) : List Str :=
  ((ls.dropWhile isBlankLine).reverse.dropWhile isBlankLine).reverse

/-- Minimum leading-space count over non-blank lines, starting from the
sentinel 9999 exactly as the source does. -/
def minIndentOf (ls : List Str) : Nat :=
  ls.foldl (fun m l => if isBlankLine l then m else min m (leadingSpaces l)) 9999

/-- Re-resolves escape placeholders back to their literal characters
inside fenced code content (the replaceAll loop of the source). -/
def restoreEsc (pairs : List (Str × Char)) (l : Str) : Str :=
  pairs.foldl (fun acc p => replaceAllSub p.1 [p.2] acc.length acc) l

/-- Renders the body of a fenced code block: carriage returns removed,
blank edge lines trimmed, common indentation stripped, escapes restored,
content HTML-escaped and wrapped in a pre/code element carrying the
language hint (default plaintext). -/
def codeBlockHtml (escPairs : List (Str × Char)) (lang codeText : Str) : Str :=
  let ls := dropBlankEnds (splitLines (codeText.filter (fun c => c ≠ '\r')))
  let mi := minIndentOf ls
  let cleaned := restoreEsc escPairs (joinNL (ls.map (fun l => l.drop mi)))
  lit "<pre class=\"language-" ++
    (if jsTrim lang = [] then lit "plaintext" else jsTrim lang) ++
  lit "\"><code>" ++ escapeHtml cleaned ++ lit "</code></pre>"

/-- Result of the backtick tokenizer: rewritten buffer plus the two
placeholder tables. -/
structure PB where
  out : Str
  codeBlocks : List (Str × Str)
  inlineCode : List (Str × Str)

/-- Single-pass backtick scanner of the source (parseBackticks): fenced
blocks first, then double-backtick spans, then single-backtick spans;
unterminated constructs consume to the end of input. -/
def pbGo (escPairs : List (Str × Char)) : Nat → Str → Nat → Nat → PB
  | 0, _, _, _ => ⟨[], [], []⟩
  | fuel + 1, src, ci, ii =>
    if (lit "```").isPrefixOf src then
      let after := src.drop 3
      let lang := after.takeWhile (fun c => ! isJsWs c)
      let r1 := after.drop lang.length
      let r2 := if r1.head? = some '\r' then r1.tail else r1
      let r3 := if r2.head? = some '\n' then r2.tail else r2
      match findSub (lit "```") r3 with
      | some (codeText, rest) =>
        let html := codeBlockHtml escPairs lang codeText
        let r := pbGo escPairs fuel rest (ci + 1) ii
        ⟨codePh ci ++ r.out, (codePh ci, html) :: r.codeBlocks, r.inlineCode⟩
      | none =>
        ⟨codePh ci, [(codePh ci, codeBlockHtml escPairs lang r3)], []⟩
    else if (lit "``").isPrefixOf src then
      let body := src.drop 2
      match findSub (lit "``") body with
      | some (code, rest) =>
        let r := pbGo escPairs fuel rest ci (ii + 1)
        ⟨inlinePh ii ++ r.out, r.codeBlocks, (inlinePh ii, code) :: r.inlineCode⟩
      | none =>
        ⟨inlinePh ii, [], [(inlinePh ii, body)]⟩
    else
      match src with
      | '`' :: body =>
        let code := body.takeWhile (fun c => c ≠ '`')
        match body.drop code.length with
        | _ :: rest =>
          let r := pbGo escPairs fuel rest ci (ii + 1)
          ⟨inlinePh ii ++ r.out, r.codeBlocks, (inlinePh ii, code) :: r.inlineCode⟩
        | [] => ⟨inlinePh ii, [], [(inlinePh ii, code)]⟩
      | c :: rest =>
        let r := pbGo escPairs fuel rest ci ii
        ⟨c :: r.out, r.codeBlocks, r.inlineCode⟩
      | [] => ⟨[], [], []⟩

/-- Whether a line starts with a list-item marker (the keep test of the
indentation-normalizing pass). -/
def isListPrefixLine (l : Str) : Bool :=
  let r := l.dropWhile (fun c => c = ' ')
  (match r with
   | b :: ' ' :: _ => b = '-' || b = '+' || b = '*'
   | _ => false) ||
  (let ds := r.takeWhile isDigit
   ds ≠ [] && (lit ". ").isPrefixOf (r.drop ds.length))

/-- Per-line action of the indentation normalizer: list-item lines,
fence lines and code-block placeholder lines are kept, every other line
loses its leading whitespace. -/
def trimIndentLine (l : Str) : Str :=
  if isListPrefixLine l || (lit "```").isPrefixOf l ||
     (lit "<!--codeblock_").isPrefixOf l
  then l else jsTrimStart l

/-- The indentation-normalizing pass. -/
def trimIndentPass (md : Str) : Str := joinNL ((splitLines md).map trimIndentLine)

/-- Generic run-of-lines replacement: a maximal run of lines satisfying
the predicate is replaced by the rendering of the joined block, and the
newline terminating the run (consumed by the source regex) makes the
rendering merge with the following line. -/
def runPassGo (isRun : Str → Bool) (render : Str → Str) : Nat → List Str → List Str
  | 0, ls => ls
  | _ + 1, [] => []
  | fuel + 1, l :: rest =>
    if isRun l then
      let run := (l :: rest).takeWhile isRun
      let rest2 := (l :: rest).dropWhile isRun
      let html := render (joinNL run)
      match rest2 with
      | [] => [html]
      | r :: rs => (html ++ r) :: runPassGo isRun render fuel rs
    else l :: runPassGo isRun render fuel rest

/-- Wraps the run replacement over a whole buffer. -/
def runPass (isRun : Str → Bool) (render : Str → Str) (md : Str) : Str :=
  let ls := splitLines md
  joinNL (runPassGo isRun render ls.length ls)

/-- Splits a checkbox-list line into its content, when it has the shape
of spaces, bullet, space, bracketed mark, space, content. -/
def checkboxPrefixSplit (l : Str) : Option Str :=
  match l.dropWhile (fun c => c = ' ') with
  | b :: ' ' :: '[' :: m :: ']' :: ' ' :: content =>
    if (b = '-' || b = '+' || b = '*') && (m = ' ' || m = 'x' || m = 'X')
    then some content else none
  | _ => none

/-- A line of a checkbox-list run (nonempty content required). -/
def isCheckboxLine (l : Str) : Bool :=
  match checkboxPrefixSplit l with
  | some c => c ≠ []
  | none => false

/-- One rendered checkbox item; the checked test searches the whole line
case-insensitively for a bracketed x, as the source does. -/
def checkboxItem (l : Str) : Str :=
  let checked := containsSub (lit "[x]") l || containsSub (lit "[X]") l
  let content := match checkboxPrefixSplit l with
                 | some c => c
                 | none => l
  lit "<li style=\"list-style: none;\"><label><input type=\"checkbox\"" ++
  (if checked then lit " checked" else []) ++ lit " disabled /> " ++ content ++
  lit "</label></li>"

/-- Renders a checkbox-list block as one unordered list. -/
def checkboxBlockHtml (block : Str) : Str :=
  lit "<ul>" ++ ((splitLines (jsTrim block)).map checkboxItem).flatten ++ lit "</ul>"

/-- A line of an ordered or bulleted list run. -/
def isListRunLine (l : Str) : Bool :=
  let r := l.dropWhile (fun c => c = ' ')
  (match r with
   | b :: ' ' :: _ :: _ => b = '-' || b = '+' || b = '*'
   | _ => false) ||
  (let ds := r.takeWhile isDigit
   ds ≠ [] &&
   (match r.drop ds.length with
    | '.' :: ' ' :: _ :: _ => true
    | _ => false))

/-- First item regex of the list renderer: indentation, a bullet or a
digit run, a literal dot, a space, then nonempty content. -/
def parseListLine1 (l : Str) : Option (Nat × Str × Str) :=
  let sp := (l.takeWhile (fun c => c = ' ')).length
  let r := l.drop sp
  let bulletCase : Option (Nat × Str × Str) :=
    match r with
    | b :: r2 =>
      if b = '-' || b = '+' || b = '*' then
        match r2 with
        | '.' :: ' ' :: c :: cs => some (sp, ([b] : Str), (c :: cs : Str))
        | _ => none
      else none
    | [] => none
  match bulletCase with
  | some x => some x
  | none =>
    let ds := r.takeWhile isDigit
    if ds = [] then none
    else match r.drop ds.length with
         | '.' :: ' ' :: c :: cs => some (sp, ds, (c :: cs : Str))
         | _ => none

/-- Second item regex of the list renderer: indentation, a bullet, a
space, then nonempty content. -/
def parseListLine2 (l : Str) : Option (Nat × Str × Str) :=
  let sp := (l.takeWhile (fun c => c = ' ')).length
  match l.drop sp with
  | b :: ' ' :: c :: cs =>
    if b = '-' || b = '+' || b = '*' then some (sp, ([b] : Str), (c :: cs : Str))
    else none
  | _ => none

/-- Item parse of the list renderer: the dot-marker regex first, then the
plain bullet regex. -/
def parseListLine (l : Str) : Option (Nat × Str × Str) :=
  match parseListLine1 l with
  | some x => some x
  | none => parseListLine2 l

/-- One frame of the nested-list stack: indentation width and list type. -/
structure Frame where
  indent : Nat
  type : Str
deriving DecidableEq

/-- Pops frames whose indentation strictly exceeds the incoming indent,
emitting their closing tags (the while loop of the list renderer). The
head of the list is the top of the stack. -/
def closeFrames : List Frame → Nat → Str × List Frame
  | [], _ => ([], [])
  | f :: fs, ind =>
    if ind < f.indent then
      let r := closeFrames fs ind
      (lit "</li></" ++ f.type ++ lit ">" ++ r.1, r.2)
    else ([], f :: fs)

/-- The hidden index marker emitted for ordered items. -/
def mdIndexSpan (marker : Str) : Str :=
  lit "<span style=\"display:none\" data-md-index=\"" ++ marker ++ lit "\"></span>"

/-- One step of the nested-list walk: close deeper frames, then either
open a new nested list or continue with a sibling item. -/
def listStep (st : List Frame) (l : Str) : Str × List Frame :=
  match parseListLine l with
  | none => ([], st)
  | some (ind, marker, content) =>
    let isOrdered := marker ≠ [] && marker.all isDigit
    let ty := if isOrdered then lit "ol" else lit "ul"
    let c1 := closeFrames st ind
    let opened :=
      match c1.2 with
      | [] => true
      | f :: _ => f.indent < ind
    let h2 := if opened then lit "<" ++ ty ++ lit "><li>" else lit "</li><li>"
    let st2 := if opened then (⟨ind, ty⟩ : Frame) :: c1.2 else c1.2
    let item := if isOrdered then mdIndexSpan marker ++ content else content
    (c1.1 ++ h2 ++ item, st2)

/-- Closes every frame still open at the end of a list block. -/
def closeAllFrames : List Frame → Str
  | [] => []
  | f :: fs => lit "</li></" ++ f.type ++ lit ">" ++ closeAllFrames fs

/-- Folds the list walk over the lines of one block. -/
def listFold (st : List Frame) : List Str → Str
  | [] => closeAllFrames st
  | l :: ls =>
    let s := listStep st l
    s.1 ++ listFold s.2 ls

/-- Literal prefix of the hidden index marker looked up by the final
value rewrite of the list renderer. -/
def spanPrefixPat : Str := lit "<li><span style=\"display:none\" data-md-index=\""

/-- Global rewrite replacing a list item that starts with the hidden
index marker by a list item with an explicit value attribute. -/
def spanValueGo : Nat → Str → Str
  | 0, l => l
  | fuel + 1, l =>
    let r := l.drop spanPrefixPat.length
    let ds := r.takeWhile isDigit
    if spanPrefixPat.isPrefixOf l &&
       (ds ≠ [] && (lit "\"></span>").isPrefixOf (r.drop ds.length)) then
      lit "<li value=\"" ++ ds ++ lit "\">" ++
        spanValueGo fuel ((r.drop ds.length).drop 9)
    else
      match l with
      | [] => []
      | c :: rest => c :: spanValueGo fuel rest

/-- Renders one ordered/unordered list block. -/
def listBlockHtml (block : Str) : Str :=
  let h := listFold [] (splitLines (jsTrimEnd block))
  spanValueGo h.length h

/-- Applies a per-line rewrite to every line of the buffer; the heading
and rule patterns are line-anchored on both sides, so their global
multiline replacement acts linewise. -/
def applyLinewise (f : Str → Str) (md : Str) : Str :=
  joinNL ((splitLines md).map f)

/-- Heading rewrite for one level: a line starting with that many hash
marks and a space is wrapped in the matching heading element. -/
def headingLine (k : Nat) (l : Str) : Str :=
  if (List.replicate k '#' ++ [' ']).isPrefixOf l then
    lit "<h" ++ lit (toString k) ++ lit ">" ++ l.drop (k + 1) ++
    lit "</h" ++ lit (toString k) ++ lit ">"
  else l

/-- A horizontal-rule line: three or more copies of the same character
among dash, star, underscore, and nothing else. -/
def isHrLine (l : Str) : Bool :=
  match l.head? with
  | some c => (c = '-' || c = '*' || c = '_') && decide (3 ≤ l.length) &&
              l.all (fun x => x = c)
  | none => false

/-- Horizontal-rule rewrite for one line. -/
def hrLine (l : Str) : Str := if isHrLine l then lit "<hr>" else l

/-- Finds the closing double tilde of a strikethrough span: the next
adjacent tilde pair, failing at a newline (the dot of the lazy group does
not match newlines). -/
def delClose : Str → Option (Str × Str)
  | [] => none
  | '~' :: '~' :: rest => some ([], rest)
  | c :: rest =>
    if c = '\n' then none
    else match delClose rest with
         | some p => some (c :: p.1, p.2)
         | none => none

/-- Global strikethrough rewrite. -/
def delGo : Nat → Str → Str
  | 0, l => l
  | _ + 1, [] => []
  | fuel + 1, '~' :: '~' :: rest =>
    (match delClose rest with
     | some (mid, r2) => lit "<del>" ++ mid ++ lit "</del>" ++ delGo fuel r2
     | none => '~' :: delGo fuel ('~' :: rest))
  | fuel + 1, c :: rest => c :: delGo fuel rest

/-- End lookahead of the emphasis patterns: the position after the
closing delimiter is a non-word character or the end of input. -/
def lookaheadEndOk (r : Str) : Bool :=
  match r with
  | [] => true
  | c :: _ => ! isWordChar c

/-- Search for the closing delimiter of an emphasis span, lazily growing
the content: at each position the banned lookbehind, the closing
delimiter and the end lookahead are tested; a newline aborts. The
context argument carries the reversed text before the candidate closing
position (opening delimiter plus content so far). -/
def emphClose (d : Char) (k : Nat) (banRev : Str) : Nat → Str → Str → Str → Option (Str × Str)
  | 0, _, _, _ => none
  | fuel + 1, ctxRev, midRev, rest =>
    if (! banRev.isPrefixOf ctxRev) && (List.replicate k d).isPrefixOf rest &&
       lookaheadEndOk (rest.drop k) then
      some (midRev.reverse, rest.drop k)
    else
      match rest with
      | [] => none
      | c :: rs =>
        if c = '\n' then none
        else emphClose d k banRev fuel (c :: ctxRev) (c :: midRev) rs

/-- Attempts an emphasis match directly after the boundary character:
opening delimiter, negative lookahead against a longer delimiter run,
then the lazy content search. -/
def emphTryAt (d : Char) (k : Nat) (banRev : Str) (s : Str) : Option (Str × Str) :=
  if (List.replicate k d).isPrefixOf s then
    match s.drop k with
    | c0 :: r2 =>
      if c0 = d || c0 = '\n' then none
      else emphClose d k banRev (r2.length + 1) (c0 :: List.replicate k d) [c0] r2
    | [] => none
  else none

/-- Global scan of one emphasis pattern: a match may start at the very
beginning of the buffer or after a non-word character (which is captured
and re-emitted); on failure the scan advances one character. -/
def emphGo (d : Char) (k : Nat) (banRev pre post : Str) : Nat → Bool → Str → Str
  | 0, _, l => l
  | fuel + 1, atStart, src =>
    let att1 :=
      if atStart then (emphTryAt d k banRev src).map (fun p => (([] : Str), p))
      else none
    let att2 :=
      match att1 with
      | some x => some x
      | none =>
        match src with
        | c :: rs =>
          if ! isWordChar c then (emphTryAt d k banRev rs).map (fun p => (([c] : Str), p))
          else none
        | [] => none
    match att2 with
    | some (w1, (mid, rest)) =>
      w1 ++ pre ++ mid ++ post ++ emphGo d k banRev pre post fuel false rest
    | none =>
      match src with
      | [] => []
      | c :: rs => c :: emphGo d k banRev pre post fuel false rs

/-- One emphasis pattern applied over the whole buffer. -/
def emphPass (d : Char) (k : Nat) (ban pre post : String) (md : Str) : Str :=
  emphGo d k (lit ban).reverse (lit pre) (lit post) (md.length + 1) true md

/-- Bare autolink rewrite: an angle-bracketed http, https or ftp URL
becomes an anchor opening in a new browsing context. -/
def autolinkGo : Nat → Str → Str
  | 0, l => l
  | _ + 1, [] => []
  | fuel + 1, '<' :: rest =>
    let sch := if (lit "https://").isPrefixOf rest then some 8
               else if (lit "http://").isPrefixOf rest then some 7
               else if (lit "ftp://").isPrefixOf rest then some 6
               else none
    (match sch with
     | some n =>
       let r := rest.drop n
       let url := r.takeWhile (fun c => c ≠ '>' && ! isJsWs c)
       if url ≠ [] && (r.drop url.length).head? = some '>' then
         let full := rest.take n ++ url
         lit "<a href=\"" ++ full ++ lit "\" target=\"_blank\">" ++ full ++ lit "</a>" ++
           autolinkGo fuel ((r.drop url.length).drop 1)
       else '<' :: autolinkGo fuel rest
     | none => '<' :: autolinkGo fuel rest)
  | fuel + 1, c :: rest => c :: autolinkGo fuel rest

/-- All inline patterns of the source, in table order. -/
def patternsPass (md : Str) : Str :=
  let m := applyLinewise (headingLine 6) md
  let m := applyLinewise (headingLine 5) m
  let m := applyLinewise (headingLine 4) m
  let m := applyLinewise (headingLine 3) m
  let m := applyLinewise (headingLine 2) m
  let m := applyLinewise (headingLine 1) m
  let m := applyLinewise hrLine m
  let m := delGo (m.length + 1) m
  let m := emphPass '*' 3 "**" "<strong><em>" "</em></strong>" m
  let m := emphPass '_' 3 "___" "<strong><em>" "</em></strong>" m
  let m := emphPass '*' 2 "**" "<strong>" "</strong>" m
  let m := emphPass '_' 2 "__" "<strong>" "</strong>" m
  let m := emphPass '*' 1 "*" "<em>" "</em>" m
  let m := emphPass '_' 1 "_" "<em>" "</em>" m
  autolinkGo (m.length + 1) m

/-- Lazy parse of the parenthesized target of an image or link: a
nonempty run of non-whitespace characters, optionally followed by spaces
and a quoted title, then the closing parenthesis. -/
def parenTargetGo : Nat → Str → Str → Option (Str × Option Str × Str)
  | 0, _, _ => none
  | fuel + 1, srcRev, rest =>
    let tit :=
      let sp := rest.takeWhile (fun c => c = ' ')
      if sp ≠ [] then
        match rest.drop sp.length with
        | '"' :: r2 =>
          let t := r2.takeWhile (fun c => c ≠ '"')
          if t ≠ [] then
            match r2.drop t.length with
            | '"' :: ')' :: r3 => some (srcRev.reverse, some t, r3)
            | _ => none
          else none
        | _ => none
      else none
    match tit with
    | some x => some x
    | none =>
      match rest with
      | ')' :: r3 => some (srcRev.reverse, none, r3)
      | c :: rs => if isJsWs c then none else parenTargetGo fuel (c :: srcRev) rs
      | [] => none

/-- Rendered image element. -/
def imgHtml (alt src : Str) (tit : Option Str) : Str :=
  lit "<img alt=\"" ++ alt ++ lit "\" src=\"" ++ src ++ lit "\"" ++
  (match tit with
   | some t => lit " title=\"" ++ t ++ lit "\""
   | none => []) ++
  lit " style=\"max-width: 100%;\">"

/-- Attempts an image match after the bang-bracket opener. -/
def imageTryAt (rest : Str) : Option (Str × Str) :=
  let alt := rest.takeWhile (fun c => c ≠ ']')
  match rest.drop alt.length with
  | ']' :: '(' :: c :: r2 =>
    if isJsWs c then none
    else match parenTargetGo (r2.length + 1) [c] r2 with
         | some (src, tit, rest3) => some (imgHtml alt src tit, rest3)
         | none => none
  | _ => none

/-- Global image rewrite. -/
def imageGo : Nat → Str → Str
  | 0, l => l
  | _ + 1, [] => []
  | fuel + 1, '!' :: '[' :: rest =>
    (match imageTryAt rest with
     | some (repl, rest3) => repl ++ imageGo fuel rest3
     | none => '!' :: imageGo fuel ('[' :: rest))
  | fuel + 1, c :: rest => c :: imageGo fuel rest

/-- Rendered anchor element for a markdown link. -/
def linkHtml (text href : Str) (tit : Option Str) : Str :=
  lit "<a href=\"" ++ href ++ lit "\"" ++
  (match tit with
   | some t => lit " title=\"" ++ t ++ lit "\""
   | none => []) ++
  lit " target=\"_blank\">" ++ text ++ lit "</a>"

/-- Attempts a link match after the opening bracket (nonempty text). -/
def linkTryAt (rest : Str) : Option (Str × Str) :=
  let text := rest.takeWhile (fun c => c ≠ ']')
  if text = [] then none
  else match rest.drop text.length with
       | ']' :: '(' :: c :: r2 =>
         if isJsWs c then none
         else match parenTargetGo (r2.length + 1) [c] r2 with
              | some (href, tit, rest3) => some (linkHtml text href tit, rest3)
              | none => none
       | _ => none

/-- Global link rewrite (runs after the image rewrite). -/
def linkGo : Nat → Str → Str
  | 0, l => l
  | _ + 1, [] => []
  | fuel + 1, '[' :: rest =>
    (match linkTryAt rest with
     | some (repl, rest3) => repl ++ linkGo fuel rest3
     | none => '[' :: linkGo fuel rest)
  | fuel + 1, c :: rest => c :: linkGo fuel rest

/-- The entity-encoded quote marker. -/
def gtTok : Str := lit "&gt;"

/-- A line opening with a quote marker. -/
def isQuoteLine (l : Str) : Bool := gtTok.isPrefixOf l

/-- A continuation line of a quote block: nonempty, not a quote line and
not starting with an angle bracket. -/
def isContLine (l : Str) : Bool :=
  ! gtTok.isPrefixOf l && l ≠ [] && l.head? ≠ some '<'

/-- Quote line record as built by the classification step. -/
structure QItem where
  level : Nat
  content : Str
  isQ : Bool
deriving DecidableEq

/-- Counts the greedy run of quote markers, each optionally followed by
one whitespace character, returning the count and the rest of the line. -/
def quoteMarkerCount : Nat → Str → Nat × Str
  | 0, l => (0, l)
  | fuel + 1, l =>
    if gtTok.isPrefixOf l then
      let r := l.drop 4
      let r2 := match r with
                | c :: rs => if isJsWs c then rs else r
                | [] => r
      let p := quoteMarkerCount fuel r2
      (p.1 + 1, p.2)
    else (0, l)

/-- Classification of one line of a quote block: marker count and
remaining content with leading whitespace removed, or a continuation
record for a line with no leading marker. -/
def classifyQuoteLine (l : Str) : QItem :=
  let p := quoteMarkerCount (l.length + 1) l
  if p.1 = 0 then ⟨0, l, false⟩
  else ⟨p.1, jsTrimStart p.2, true⟩

/-- Collects the maximal run of a quote block: one or more quote lines,
then any continuation lines, repeated. -/
def quoteRunSplit : Nat → List Str → List Str × List Str
  | 0, ls => ([], ls)
  | fuel + 1, ls =>
    let qs := ls.takeWhile isQuoteLine
    if qs = [] then ([], ls)
    else
      let r1 := ls.dropWhile isQuoteLine
      let cs := r1.takeWhile isContLine
      let r2 := r1.dropWhile isContLine
      let p := quoteRunSplit fuel r2
      (qs ++ cs ++ p.1, p.2)

/-- Joins rendered parts into a blockquote element. -/
def blockquoteWrap (parts : List Str) : Str :=
  lit "<blockquote>" ++ joinNL parts ++ lit "</blockquote>"

/-- The recursive renderQuote walk: continuation items re-enter the full
pipeline, items at the current level render their content directly (a
line break when empty), deeper items are grouped into a contiguous
nested run rendered one level down, degrading to a plain line break when
the nested render collapses to an empty quote box. -/
def renderQuoteGo (recur : Str → Str) : Nat → List QItem → Nat → List Str
  | 0, _, _ => []
  | _ + 1, [], _ => []
  | fuel + 1, it :: rest, level =>
    if ! it.isQ then
      recur it.content :: renderQuoteGo recur fuel rest level
    else if it.level = level then
      (if it.content = [] then lit "<br>" else recur it.content) ::
        renderQuoteGo recur fuel rest level
    else if level < it.level then
      let nested := it :: rest.takeWhile (fun j => j.isQ && it.level ≤ j.level)
      let rest2 := rest.dropWhile (fun j => j.isQ && it.level ≤ j.level)
      let nestedHtml := blockquoteWrap (renderQuoteGo recur fuel nested it.level)
      let stripped := nestedHtml.filter (fun c => ! isJsWs c)
      (if stripped = lit "<blockquote></blockquote>" ||
          stripped = lit "<blockquote><br></blockquote>"
       then lit "<br>" else nestedHtml) :: renderQuoteGo recur fuel rest2 level
    else renderQuoteGo recur fuel rest level

/-- Renders the items of one quote block at the outermost level. -/
def quoteBlockHtml (recur : Str → Str) (block : Str) : Str :=
  let items := (splitLines (jsTrimEnd block)).map classifyQuoteLine
  let maxLev := (items.map QItem.level).foldr max 0
  blockquoteWrap (renderQuoteGo recur ((items.length + 1) * (maxLev + 2)) items 1)

/-- The blockquote pass over the whole buffer. -/
def quotePassGo (recur : Str → Str) : Nat → List Str → List Str
  | 0, ls => ls
  | _ + 1, [] => []
  | fuel + 1, l :: rest =>
    if isQuoteLine l then
      let p := quoteRunSplit ((l :: rest).length + 1) (l :: rest)
      let html := quoteBlockHtml recur (joinNL p.1)
      match p.2 with
      | [] => [html]
      | r :: rs => (html ++ r) :: quotePassGo recur fuel rs
    else l :: quotePassGo recur fuel rest

/-- Wraps the blockquote pass over a whole buffer. -/
def quotePass (recur : Str → Str) (md : Str) : Str :=
  let ls := splitLines md
  joinNL (quotePassGo recur ls.length ls)

/-- A candidate table line: starts with a pipe and contains a second
pipe (the matched portion stops at the last pipe of the line). -/
def isTableLine (l : Str) : Bool :=
  l.head? = some '|' && (l.drop 1).contains '|'

/-- Splits a candidate line at its last pipe: the matched portion
(ending with that pipe) and the unmatched tail. -/
def tableSplitLine (l : Str) : Str × Str :=
  let tail := l.reverse.takeWhile (fun c => c ≠ '|')
  (l.take (l.length - tail.length), tail.reverse)

/-- Collects a run of candidate table lines: a line whose tail after the
last pipe is nonempty ends the match inside that line. Returns the
matched lines, the leftover tail, and the remaining lines. -/
def tableRunSplit : Nat → List Str → List Str × Str × List Str
  | 0, ls => ([], [], ls)
  | _ + 1, [] => ([], [], [])
  | fuel + 1, l :: rest =>
    if isTableLine l then
      let p := tableSplitLine l
      if p.2 = [] then
        let r := tableRunSplit fuel rest
        (p.1 :: r.1, r.2.1, r.2.2)
      else ([p.1], p.2, rest)
    else ([], [], l :: rest)

/-- A separator cell: nonempty, only whitespace, dashes and colons. -/
def sepCellOk (c : Str) : Bool :=
  c ≠ [] && c.all (fun x => isJsWs x || x = '-' || x = ':')

/-- The alignment-separator row test of the table pass. -/
def isSepLine (l : Str) : Bool :=
  match l with
  | '|' :: rest =>
    (match (splitOnChar '|' rest).reverse with
     | lastPiece :: gs => lastPiece = [] && gs ≠ [] && gs.all sepCellOk
     | [] => false)
  | _ => false

/-- JS slice with arguments one and minus one: drops the first and last
characters. -/
def sliceDropEnds (l : Str) : Str := (l.drop 1).dropLast

/-- Alignment derived from one separator cell. -/
def cellAlign (cell : Str) : Str :=
  let t := jsTrim cell
  if t.head? = some ':' && t.getLast? = some ':' then lit "center"
  else if t.head? = some ':' then lit "left"
  else if t.getLast? = some ':' then lit "right"
  else lit "left"

/-- Renders one table row with the per-column alignments (missing
alignments default to left). -/
def renderRowCells (aligns : List Str) (row : Str) (tag : Str) : Str :=
  let cells := (splitOnChar '|' (sliceDropEnds (jsTrim row))).map jsTrim
  lit "<tr>" ++
  (cells.enum.map (fun p =>
    lit "<" ++ tag ++ lit " style=\"text-align:" ++ aligns.getD p.1 (lit "left") ++
    lit ";\">" ++ p.2 ++ lit "</" ++ tag ++ lit ">")).flatten ++
  lit "</tr>"

/-- Renders one candidate block: blocks with fewer than two lines or an
invalid second line are returned completely unmodified. -/
def tableBlockHtml (block : Str) : Str :=
  let lines := splitLines (jsTrim block)
  match lines with
  | l0 :: l1 :: rest =>
    if ! isSepLine l1 then block
    else
      let aligns := (splitOnChar '|' (sliceDropEnds (jsTrim l1))).map cellAlign
      let thead := renderRowCells aligns l0 (lit "th")
      let tbody := (rest.map (fun r => renderRowCells aligns r (lit "td"))).flatten
      lit "<table><thead>" ++ thead ++ lit "</thead><tbody>" ++ tbody ++
      lit "</tbody></table>"
  | _ => block

/-- The table pass over the whole buffer. -/
def tablePassGo : Nat → List Str → List Str
  | 0, ls => ls
  | _ + 1, [] => []
  | fuel + 1, l :: rest =>
    if isTableLine l then
      let t := tableRunSplit ((l :: rest).length + 1) (l :: rest)
      if t.2.1 = [] then
        match t.2.2 with
        | [] => [tableBlockHtml (joinNL t.1)]
        | r :: rs => (tableBlockHtml (joinNL t.1 ++ ['\n']) ++ r) :: tablePassGo fuel rs
      else (tableBlockHtml (joinNL t.1) ++ t.2.1) :: tablePassGo fuel t.2.2
    else l :: tablePassGo fuel rest

/-- Wraps the table pass over a whole buffer. -/
def tablePass (md : Str) : Str :=
  let ls := splitLines md
  joinNL (tablePassGo ls.length ls)

/-- The helper checking whether a line looks like an HTML tag. -/
def isHtmlTagLike (l : Str) : Bool :=
  match jsTrim l with
  | '<' :: r0 =>
    let r1 := if r0.head? = some '/' then r0.tail else r0
    (match r1 with
     | c :: r2 =>
       isAsciiLetter c &&
       (let r3 := r2.dropWhile (fun x => isWordChar x || x = '-')
        match r3 with
        | '>' :: _ => true
        | w :: r4 => isJsWs w && (r4.dropWhile (fun x => x ≠ '>')).head? = some '>'
        | [] => false)
     | [] => false)
  | _ => false

/-- Flushes the accumulated paragraph buffer. -/
def paraFlush (para : List Str) : List Str :=
  if para = [] then []
  else [lit "<p>" ++ (para.intersperse (lit "<br>")).flatten ++ lit "</p>"]

/-- The paragraph walk: blank lines flush, code-block placeholder lines
and HTML-tag-like lines flush and pass through verbatim, everything else
accumulates into the current paragraph. -/
def paraGo (para : List Str) : List Str → List Str
  | [] => paraFlush para
  | l :: ls =>
    let t := jsTrim l
    if t = [] then paraFlush para ++ paraGo [] ls
    else if (lit "<!--codeblock_").isPrefixOf t || isHtmlTagLike t then
      paraFlush para ++ [t] ++ paraGo [] ls
    else paraGo (para ++ [t]) ls

/-- The paragraph-assembly pass. -/
def paragraphPass (md : Str) : Str := joinNL (paraGo [] (splitLines md))

/-- The reassembler: code-block placeholders, then inline-code
placeholders (escaped now and wrapped in a code element), then escape
placeholders, each replacing the first occurrence. -/
def reassemble (codeBlocks inlineCodes : List (Str × Str))
    (escPairs : List (Str × Char)) (html : Str) : Str :=
  let h1 := codeBlocks.foldl (fun acc p => jsReplaceOnce acc p.1 p.2) html
  let h2 := inlineCodes.foldl
    (fun acc p => jsReplaceOnce acc p.1 (lit "<code>" ++ escapeHtml p.2 ++ lit "</code>")) h1
  escPairs.foldl (fun acc p => jsReplaceOnce acc p.1 [p.2]) h2

/-- One full execution of the conversion pipeline, with the blockquote
self-recursion supplied as an argument. -/
def passes (recur : Str → Str) (md : Str) : Str :=
  let e := escapePassGo md 0
  let pb := pbGo e.2 (e.1.length + 1) e.1 0 0
  let m := trimIndentPass pb.out
  let m := runPass isCheckboxLine checkboxBlockHtml m
  let m := runPass isListRunLine listBlockHtml m
  let m := patternsPass m
  let m := imageGo (m.length + 1) m
  let m := linkGo (m.length + 1) m
  let m := quotePass recur m
  let m := tablePass m
  let m := paragraphPass m
  jsTrim (reassemble pb.codeBlocks pb.inlineCode e.2 m)

/-- Fuel-indexed conversion: the blockquote pass re-enters the pipeline
with one unit of fuel less. Every recursive argument strips at least one
quote marker from the text it came from, so the chosen top-level fuel is
never exhausted. -/
def markdownToHtmlF : Nat → Str → Str
  | 0, _ => []
  | fuel + 1, md => passes (markdownToHtmlF fuel) md

/-- The conversion function of the source (markdownToHtml). -/
def markdownToHtml (md : Str) : Str := markdownToHtmlF (md.length + 1) md

/-- Markdown trigger sequences covering the classes named by the code
isolation property: emphasis markers, strikethrough, heading markers,
list markers, pipes, brackets and links, quote markers, rule markers. -/
def triggerSequences : List Str :=
  [lit "*", lit "**", lit "***", lit "_", lit "__", lit "___",
   lit "~~x~~", lit "# h", lit "###### h", lit "- i", lit "+ i",
   lit "* i", lit "1. i", lit "&gt; q", lit "> q", lit "---",
   lit "|a|b|", lit "[x](y)", lit "![x](y)", lit "<https://e.c>"]

/-- Wraps text in a fenced code block. -/
def fenceWrap (t : Str) : Str := lit "```" ++ '\n' :: t ++ '\n' :: lit "```"

/-- Wraps text in a single-backtick span. -/
def backtickWrap (t : Str) : Str := '`' :: t ++ ['`']

/-- The stack invariant of the nested-list pass: indentation widths are
strictly increasing from the bottom of the stack to the top (the head of
the list is the top). -/
def StackIncr (st : List Frame) : Prop :=
  List.Chain' (fun a b => b.indent < a.indent) st

/-- A string with no leading and no trailing JS whitespace. -/
def isTrimmedStr (l : Str) : Bool :=
  (match l.head? with
   | some c => ! isJsWs c
   | none => true) &&
  (match l.getLast? with
   | some c => ! isJsWs c
   | none => true)

/-- Following the words of the specification (for comparison with the
code): the count of leading quote markers of a line, ignoring arbitrary
interleaved whitespace between markers. -/
def specLeadingQuoteMarkers : Nat → Str → Nat
  | 0, _ => 0
  | fuel + 1, l =>
    if gtTok.isPrefixOf l then
      1 + specLeadingQuoteMarkers fuel (jsTrimStart (l.drop 4))
    else 0

/-- Spec-side quote level of a line. -/
def specQuoteLevelOf (l : Str) : Nat :=
  specLeadingQuoteMarkers (l.length + 1) l

/-- An optional character as a string piece. -/
def optChar : Option Char → Str
  | some c => [c]
  | none => []

/-- Builds a line of quote markers, each followed by an optional single
whitespace character, before the remaining content. -/
def markerRun : List (Option Char) → Str → Str
  | [], rest => rest
  | w :: ws, rest => gtTok ++ (optChar w ++ markerRun ws rest)

/-! Claim theorems, with their supporting lemmas. -/

/-- Unfolding of the prefix test on two cons cells. -/
theorem isPrefixOf_cons_eq (a b : Char) (as bs : Str) :
    (a :: as).isPrefixOf (b :: bs) = (a == b && as.isPrefixOf bs) := rfl

/-- The escape pass is the identity on backslash-free text and creates
no placeholders there. -/
theorem escapePassGo_id (n : Nat) : ∀ s : Str, (∀ c ∈ s, c ≠ '\\') →
    escapePassGo s n = (s, []) := by
  intro s
  induction s with
  | nil => intro _; rfl
  | cons c rest ih =>
    intro h
    have hc : c ≠ '\\' := h c (by simp)
    have hr := ih (fun x hx => h x (by simp [hx]))
    rw [escapePassGo.eq_def]
    simp [hc, hr]

/-- Locating the closing fence after backtick-free content. -/
theorem findSub_fence : ∀ t : Str, (∀ c ∈ t, c ≠ '`') →
    findSub (lit "```") (t ++ '\n' :: lit "```") = some (t ++ ['\n'], []) := by
  intro t
  induction t with
  | nil => intro _; decide
  | cons c rest ih =>
    intro h
    have hc : c ≠ '`' := h c (by simp)
    have hr := ih (fun x hx => h x (by simp [hx]))
    rw [List.cons_append, findSub]
    have hpre : (lit "```").isPrefixOf (c :: (rest ++ '\n' :: lit "```")) = false := by
      have : (lit "```").isPrefixOf (c :: (rest ++ '\n' :: lit "```")) =
          ('`' == c && (lit "``").isPrefixOf (rest ++ '\n' :: lit "```")) := rfl
      rw [this]
      have hb : ('`' == c) = false := beq_eq_false_iff_ne.mpr (Ne.symm hc)
      simp [hb]
    rw [if_neg (by simp [hpre])]
    rw [hr]
    rfl

/-- Splitting newline-free text followed by one newline. -/
theorem splitLines_append_newline : ∀ t : Str, (∀ c ∈ t, c ≠ '\n') →
    splitLines (t ++ ['\n']) = [t, []] := by
  intro t
  induction t with
  | nil => intro _; rfl
  | cons c rest ih =>
    intro h
    have hc : c ≠ '\n' := h c (by simp)
    have hr := ih (fun x hx => h x (by simp [hx]))
    rw [List.cons_append, splitLines, hr]
    simp [hc]

/-- Dollar substitution is the identity on dollar-free replacements. -/
theorem dollarSub_id (m b a : Str) : ∀ repl : Str, (∀ c ∈ repl, c ≠ '$') →
    dollarSub m b a repl = repl := by
  intro repl
  induction repl with
  | nil => intro _; rfl
  | cons c rest ih =>
    intro h
    have hc : c ≠ '$' := h c (by simp)
    have hr := ih (fun x hx => h x (by simp [hx]))
    rw [dollarSub.eq_def]
    simp [hc, hr]

/-- HTML escaping introduces no dollar characters. -/
theorem escapeHtml_no_dollar : ∀ t : Str, (∀ c ∈ t, c ≠ '$') →
    ∀ c ∈ escapeHtml t, c ≠ '$' := by
  intro t
  induction t with
  | nil => intro _ c hc; cases hc
  | cons a rest ih =>
    intro h c hc
    have ha : a ≠ '$' := h a (by simp)
    have hrest := ih (fun x hx => h x (by simp [hx]))
    rw [escapeHtml] at hc
    by_cases h1 : a = '&'
    · rw [if_pos h1] at hc
      by_cases h2 : entityAhead rest = true
      · rw [if_pos h2] at hc
        rcases List.mem_cons.mp hc with rfl | hc2
        · decide
        · exact hrest c hc2
      · rw [if_neg h2] at hc
        rcases List.mem_append.mp hc with hc1 | hc2
        · exact (by decide : ∀ x ∈ lit "&amp;", x ≠ '$') c hc1
        · exact hrest c hc2
    · rw [if_neg h1] at hc
      by_cases h3 : a = '<'
      · rw [if_pos h3] at hc
        rcases List.mem_append.mp hc with hc1 | hc2
        · exact (by decide : ∀ x ∈ lit "&lt;", x ≠ '$') c hc1
        · exact hrest c hc2
      · rw [if_neg h3] at hc
        by_cases h4 : a = '>'
        · rw [if_pos h4] at hc
          rcases List.mem_append.mp hc with hc1 | hc2
          · exact (by decide : ∀ x ∈ lit "&gt;", x ≠ '$') c hc1
          · exact hrest c hc2
        · rw [if_neg h4] at hc
          by_cases h5 : a = '"'
          · rw [if_pos h5] at hc
            rcases List.mem_append.mp hc with hc1 | hc2
            · exact (by decide : ∀ x ∈ lit "&quot;", x ≠ '$') c hc1
            · exact hrest c hc2
          · rw [if_neg h5] at hc
            by_cases h6 : a = '\''
            · rw [if_pos h6] at hc
              rcases List.mem_append.mp hc with hc1 | hc2
              · exact (by decide : ∀ x ∈ lit "&#39;", x ≠ '$') c hc1
              · exact hrest c hc2
            · rw [if_neg h6] at hc
              rcases List.mem_cons.mp hc with rfl | hc2
              · exact ha
              · exact hrest c hc2

/-- The backtick scanner on empty input. -/
theorem pbGo_nil (escPairs : List (Str × Char)) (fuel ci ii : Nat) :
    (pbGo escPairs fuel [] ci ii).out = [] ∧
    (pbGo escPairs fuel [] ci ii).codeBlocks = [] ∧
    (pbGo escPairs fuel [] ci ii).inlineCode = [] := by
  cases fuel with
  | zero => exact ⟨rfl, rfl, rfl⟩
  | succ f => exact ⟨rfl, rfl, rfl⟩

/-! Claim theorems continue below. -/

/-- C2, counterexample: on the input of the scenario the converter does
not wrap the formatted line in a paragraph element, because after inline
formatting the line starts with an HTML tag and the paragraph assembler
emits such lines verbatim. -/
theorem bold_em_counterexample :
    markdownToHtml (lit "**bold** _em_") ≠
      lit "<p><strong>bold</strong> <em>em</em></p>" := by decide

/-- C2, amended: the input of the scenario converts to the strong and
emphasis markup without a paragraph wrapper. -/
theorem bold_em_scenario :
    markdownToHtml (lit "**bold** _em_") =
      lit "<strong>bold</strong> <em>em</em>" := by decide

/-! The statement and proof of the code isolation property (C3) are
placed at the end of the file, after the general lemmas about the
backtick scanner. -/

/-- C4: a backslash before any character of the recognized punctuation
set renders that character verbatim (never as markup, as the starred and
bracketed scenarios show), and a backslash before a character outside
the set is left untouched by the escape pass, with no placeholder
created. -/
theorem escape_round_trip :
    (∀ c ∈ escChars, markdownToHtml ['\\', c] = '<' :: 'p' :: '>' :: c :: lit "</p>") ∧
    markdownToHtml (lit "\\*x\\*") = lit "<p>*x*</p>" ∧
    markdownToHtml (lit "\\# h") = lit "<p># h</p>" ∧
    markdownToHtml (lit "\\[x\\](y)") = lit "<p>[x](y)</p>" ∧
    (∀ c, escChars.contains c = false → escapePassGo ['\\', c] 0 = (['\\', c], [])) := by
  refine ⟨by decide, by decide, by decide, by decide, ?_⟩
  intro c h
  by_cases hc : c = '\\'
  · subst hc
    have hm : escChars.contains '\\' = true := by decide
    rw [hm] at h
    cases h
  · simp [escapePassGo, h, hc]
    simpa using h

/-- C4, witness: the starred escape renders a literal star, and a
backslash before the letter q is left untouched. -/
theorem escape_round_trip_witness :
    markdownToHtml ['\\', '*'] = '<' :: 'p' :: '>' :: '*' :: lit "</p>" ∧
    escapePassGo ['\\', 'q'] 0 = (['\\', 'q'], []) :=
  ⟨escape_round_trip.1 '*' (by decide),
   escape_round_trip.2.2.2.2 'q' (by decide)⟩

/-- An ASCII letter is none of the characters special to escapeHtml. -/
theorem asciiLetter_not_special (x : Char) (hx : isAsciiLetter x = true) :
    x ≠ '&' ∧ x ≠ '<' ∧ x ≠ '>' ∧ x ≠ '"' ∧ x ≠ '\'' := by
  refine ⟨?_, ?_, ?_, ?_, ?_⟩ <;> rintro rfl <;> revert hx <;> decide

/-- escapeHtml walks through a run of ASCII letters unchanged. -/
theorem escapeHtml_letters (w : Str) (rest : Str)
    (hw : w.all isAsciiLetter = true) :
    escapeHtml (w ++ rest) = w ++ escapeHtml rest := by
  induction w with
  | nil => rfl
  | cons c w ih =>
    simp only [List.all_cons, Bool.and_eq_true] at hw
    obtain ⟨h1, h2, h3, h4, h5⟩ := asciiLetter_not_special c hw.1
    simp [escapeHtml, h1, h2, h3, h4, h5, ih hw.2]

/-- Appending text to a run of characters satisfying a predicate keeps
the run as the takeWhile front. -/
theorem takeWhile_all_append (p : Char → Bool) (w rest : Str)
    (hw : w.all p = true) :
    (w ++ rest).takeWhile p = w ++ rest.takeWhile p := by
  induction w with
  | nil => rfl
  | cons c w ih =>
    simp only [List.all_cons, Bool.and_eq_true] at hw
    simp [List.takeWhile_cons, hw.1, ih hw.2]

/-- The entity lookahead accepts a nonempty letter run followed by a
semicolon. -/
theorem entityAhead_letters (w t : Str) (hw1 : w ≠ [])
    (hw : w.all isAsciiLetter = true) :
    entityAhead (w ++ ';' :: t) = true := by
  have htw : (w ++ ';' :: t).takeWhile isAsciiLetter = w := by
    rw [takeWhile_all_append isAsciiLetter w (';' :: t) hw]
    simp [List.takeWhile_cons, isAsciiLetter]
  simp [entityAhead, htw, hw1, List.drop_left]

/-- C10: the HTML escaping of code content leaves an ampersand that is
immediately followed by ASCII letters and a semicolon unescaped, so
entity-like text inside code spans and fenced blocks comes through
literally rather than doubly escaped. -/
theorem entity_ampersand :
    (∀ w t : Str, w ≠ [] → w.all isAsciiLetter = true →
       escapeHtml ('&' :: (w ++ ';' :: t)) = '&' :: (w ++ ';' :: escapeHtml t)) ∧
    markdownToHtml (lit "`&amp;`") = lit "<p><code>&amp;</code></p>" ∧
    markdownToHtml (fenceWrap (lit "&amp; & <")) =
      lit "<pre class=\"language-plaintext\"><code>&amp; &amp; &lt;</code></pre>" := by
  refine ⟨?_, by decide, by decide⟩
  intro w t hw1 hw
  have hent := entityAhead_letters w t hw1 hw
  have hsemi : escapeHtml (';' :: t) = ';' :: escapeHtml t := by
    simp [escapeHtml]
  calc escapeHtml ('&' :: (w ++ ';' :: t))
      = '&' :: escapeHtml (w ++ ';' :: t) := by simp [escapeHtml, hent]
    _ = '&' :: (w ++ escapeHtml (';' :: t)) := by rw [escapeHtml_letters w _ hw]
    _ = '&' :: (w ++ ';' :: escapeHtml t) := by rw [hsemi]

/-- C10, witness: the amp entity passes through escapeHtml unchanged. -/
theorem entity_ampersand_witness :
    escapeHtml ('&' :: (lit "amp" ++ ';' :: [])) =
      '&' :: (lit "amp" ++ ';' :: escapeHtml []) :=
  entity_ampersand.1 (lit "amp") [] (by decide) (by decide)

/-- The frames surviving the closing loop form a suffix of the stack. -/
theorem closeFrames_suffix (st : List Frame) (ind : Nat) :
    (closeFrames st ind).2 <:+ st := by
  induction st with
  | nil => simp [closeFrames]
  | cons f fs ih =>
    by_cases hlt : ind < f.indent
    · simp only [closeFrames, if_pos hlt]
      exact ih.trans (List.suffix_cons f fs)
    · simp only [closeFrames, if_neg hlt]
      exact List.suffix_refl _

/-- C6: at every step of the nested-list walk the stack stays strictly
increasing in indentation; a frame is popped only when its indentation
strictly exceeds the indentation of the current line; and a line whose
indentation equals the indentation of the top frame is rendered as a
sibling item, leaving the stack unchanged. -/
theorem list_stack_invariant :
    (∀ st l, StackIncr st → StackIncr (listStep st l).2) ∧
    (∀ st ind f, f ∈ st → f ∉ (closeFrames st ind).2 → ind < f.indent) ∧
    (∀ (f : Frame) rest l ind marker content,
       parseListLine l = some (ind, marker, content) → f.indent = ind →
       (listStep (f :: rest) l).2 = f :: rest ∧
       (listStep (f :: rest) l).1 =
         lit "</li><li>" ++
         (if marker ≠ [] && marker.all isDigit then mdIndexSpan marker ++ content
          else content)) := by
  refine ⟨?_, ?_, ?_⟩
  · intro st l h
    unfold listStep
    cases hp : parseListLine l with
    | none => exact h
    | some v =>
      obtain ⟨ind, marker, content⟩ := v
      have hc : StackIncr (closeFrames st ind).2 :=
        List.Chain'.suffix h (closeFrames_suffix st ind)
      cases hcf : (closeFrames st ind).2 with
      | nil => simp [hcf, StackIncr]
      | cons f fs =>
        by_cases hop : f.indent < ind
        · simp [hcf, hop, StackIncr, List.chain'_cons]
          exact hcf ▸ hc
        · simp [hcf, hop]
          exact hcf ▸ hc
  · intro st ind f hmem hnot
    induction st with
    | nil => cases hmem
    | cons g gs ih =>
      by_cases hlt : ind < g.indent
      · rw [List.mem_cons] at hmem
        cases hmem with
        | inl he => exact he ▸ hlt
        | inr hm =>
          apply ih hm
          simpa [closeFrames, if_pos hlt] using hnot
      · exact absurd (by simpa [closeFrames, if_neg hlt] using hmem) hnot
  · intro f rest l ind marker content hp hf
    have hclose : closeFrames (f :: rest) ind = ([], f :: rest) := by
      simp [closeFrames, hf]
    have hop : ¬ f.indent < ind := by omega
    constructor
    · simp [listStep, hp, hclose, hop]
    · simp [listStep, hp, hclose, hop]

/-- C6, witness: a concrete step keeps the invariant, the closing loop
pops a deeper frame only because its indent exceeds the line indent, and
an equal-indent line leaves the stack unchanged. -/
theorem list_stack_invariant_witness :
    StackIncr (listStep [(⟨0, lit "ul"⟩ : Frame)] (lit "- x")).2 ∧
    0 < (⟨2, lit "ul"⟩ : Frame).indent ∧
    (listStep [(⟨0, lit "ul"⟩ : Frame)] (lit "- y")).2 = [⟨0, lit "ul"⟩] :=
  ⟨list_stack_invariant.1 [⟨0, lit "ul"⟩] (lit "- x") (by simp [StackIncr]),
   list_stack_invariant.2.1 [⟨2, lit "ul"⟩] 0 ⟨2, lit "ul"⟩ (by decide) (by decide),
   (list_stack_invariant.2.2 ⟨0, lit "ul"⟩ [] (lit "- y") 0 ['-'] (lit "y")
      (by decide) rfl).1⟩

/-- C8: a candidate block of pipe-delimited lines becomes a table only
when it has at least two lines and its second line is a pure
alignment-separator row; any block with fewer than two lines or an
invalid second line is returned completely unmodified, and such blocks
fall through to paragraph handling, as the two pipeline scenarios show. -/
theorem table_guard :
    (∀ block, (splitLines (jsTrim block)).length < 2 → tableBlockHtml block = block) ∧
    (∀ block l0 l1 rest, splitLines (jsTrim block) = l0 :: l1 :: rest →
       isSepLine l1 = false → tableBlockHtml block = block) ∧
    (∀ block l0 l1 rest, splitLines (jsTrim block) = l0 :: l1 :: rest →
       isSepLine l1 = true →
       (lit "<table><thead>").isPrefixOf (tableBlockHtml block) = true) ∧
    markdownToHtml (lit "|a|b|" ++ '\n' :: lit "|c|d|") =
      lit "<p>|a|b|<br>|c|d|</p>" ∧
    markdownToHtml (lit "|h1|h2|" ++ '\n' :: lit "|:---|---:|" ++ '\n' :: lit "|x|y|") =
      lit "<table><thead><tr><th style=\"text-align:left;\">h1</th><th style=\"text-align:right;\">h2</th></tr></thead><tbody><tr><td style=\"text-align:left;\">x</td><td style=\"text-align:right;\">y</td></tr></tbody></table>" := by
  refine ⟨?_, ?_, ?_, by decide, by decide⟩
  · intro block h
    rcases hls : splitLines (jsTrim block) with _ | ⟨a, _ | ⟨b, r⟩⟩
    · simp [tableBlockHtml, hls]
    · simp [tableBlockHtml, hls]
    · rw [hls] at h
      simp at h
      omega
  · intro block l0 l1 rest hls hsep
    simp [tableBlockHtml, hls, hsep]
  · intro block l0 l1 rest hls hsep
    simp only [tableBlockHtml, hls, hsep]
    rw [List.isPrefixOf_iff_prefix]
    simp

/-- C8, witness: a one-line candidate and a two-line candidate without a
separator row pass through unchanged, while a candidate with a valid
separator row renders as a table. -/
theorem table_guard_witness :
    tableBlockHtml (lit "|x|") = lit "|x|" ∧
    tableBlockHtml (lit "|a|" ++ '\n' :: lit "|b|") = lit "|a|" ++ '\n' :: lit "|b|" ∧
    (lit "<table><thead>").isPrefixOf
      (tableBlockHtml (lit "|a|" ++ '\n' :: lit "|-|")) = true :=
  ⟨table_guard.1 (lit "|x|") (by decide),
   table_guard.2.1 (lit "|a|" ++ '\n' :: lit "|b|") (lit "|a|") (lit "|b|") []
     (by decide) (by decide),
   table_guard.2.2.1 (lit "|a|" ++ '\n' :: lit "|-|") (lit "|a|") (lit "|-|") []
     (by decide) (by decide)⟩

/-- The first character surviving dropWhile fails the dropped predicate. -/
theorem head_dropWhile_not (p : Char → Bool) :
    ∀ (l : Str) (c : Char), (l.dropWhile p).head? = some c → p c = false := by
  intro l
  induction l with
  | nil => intro c h; cases h
  | cons a l ih =>
    intro c h
    by_cases hp : p a
    · exact ih c (by simpa [List.dropWhile_cons, hp] using h)
    · rw [List.dropWhile_cons, if_neg (by simpa using hp)] at h
      cases h
      simpa using hp

/-- A prefix preserves the first character when nonempty. -/
theorem head_of_front (t l : Str) (h : t <+: l) (c : Char)
    (hc : t.head? = some c) : l.head? = some c := by
  obtain ⟨s, rfl⟩ := h
  cases t with
  | nil => cases hc
  | cons a t => simpa using hc

/-- The end-trimming step yields a prefix of its input. -/
theorem jsTrimEnd_front (l : Str) : jsTrimEnd l <+: l := by
  have h1 : l.reverse.dropWhile isJsWs <:+ l.reverse := List.dropWhile_suffix isJsWs
  have h2 : ((l.reverse.dropWhile isJsWs).reverse).reverse <:+ l.reverse := by
    simpa using h1
  exact (List.reverse_suffix).1 h2

/-- The result of jsTrim has neither leading nor trailing whitespace. -/
theorem isTrimmed_jsTrim (l : Str) : isTrimmedStr (jsTrim l) = true := by
  rw [isTrimmedStr, Bool.and_eq_true]
  constructor
  · rcases hh : (jsTrim l).head? with _ | c
    · rfl
    · have hpre : jsTrim l <+: jsTrimStart l := jsTrimEnd_front (jsTrimStart l)
      have := head_of_front _ _ hpre c hh
      have hws := head_dropWhile_not isJsWs l c this
      simp [hws]
  · rcases hh : (jsTrim l).getLast? with _ | c
    · rfl
    · rw [jsTrim, jsTrimEnd, List.getLast?_reverse] at hh
      have hws := head_dropWhile_not isJsWs (jsTrimStart l).reverse c hh
      simp [hws]

/-- Every fuel level of the conversion yields a trimmed string: at
positive fuel the pipeline ends with the trim of the reassembled text,
and exhausted fuel yields the empty string. -/
theorem markdownToHtmlF_trimmed : ∀ (fuel : Nat) (md : Str),
    isTrimmedStr (markdownToHtmlF fuel md) = true
  | 0, _ => rfl
  | _ + 1, _ => isTrimmed_jsTrim _

/-- C1: the total function markdownToHtml is defined on every input
string (no exception channel exists in the embedding), and its result
carries no leading or trailing whitespace. -/
theorem conversion_total_and_trimmed (md : Str) :
    isTrimmedStr (markdownToHtml md) = true :=
  markdownToHtmlF_trimmed (md.length + 1) md

/-- A digit character differs from any non-digit character. -/
theorem digit_ne (c : Char) (hc : isDigit c = true) (x : Char)
    (hx : isDigit x = false) : c ≠ x := by
  intro h
  rw [h, hx] at hc
  cases hc

/-- A digit character is not JS whitespace. -/
theorem digit_not_ws (c : Char) (hc : isDigit c = true) : isJsWs c = false := by
  have h1 := digit_ne c hc ' ' (by decide)
  have h2 := digit_ne c hc '\t' (by decide)
  have h3 := digit_ne c hc '\n' (by decide)
  have h4 := digit_ne c hc '\r' (by decide)
  have h5 := digit_ne c hc (Char.ofNat 11) (by decide)
  have h6 := digit_ne c hc (Char.ofNat 12) (by decide)
  have h7 := digit_ne c hc (Char.ofNat 0xA0) (by decide)
  have h8 := digit_ne c hc (Char.ofNat 0xFEFF) (by decide)
  have h9 := digit_ne c hc (Char.ofNat 0x2028) (by decide)
  have h10 := digit_ne c hc (Char.ofNat 0x2029) (by decide)
  simp [isJsWs, h1, h2, h3, h4, h5, h6, h7, h8, h9, h10]

/-- A newline-free string splits into a single line. -/
theorem splitLines_no_newline : ∀ l : Str, (∀ c ∈ l, c ≠ '\n') → splitLines l = [l] := by
  intro l
  induction l with
  | nil => intro _; rfl
  | cons c rest ih =>
    intro h
    have hc : c ≠ '\n' := h c (by simp)
    have hr := ih (fun x hx => h x (by simp [hx]))
    simp [splitLines, hr, hc]

/-- End trimming is the identity on strings ending with a non-whitespace
character. -/
theorem jsTrimEnd_of_last_not_ws (l : Str) (c : Char)
    (hlast : l.getLast? = some c) (hc : isJsWs c = false) : jsTrimEnd l = l := by
  rw [jsTrimEnd]
  have hh : l.reverse.head? = some c := by rw [List.head?_reverse, hlast]
  cases hr : l.reverse with
  | nil => rw [hr] at hh; cases hh
  | cons a as =>
    rw [hr] at hh
    have ha : a = c := by injection hh
    subst ha
    simp only [List.dropWhile_cons, hc]
    rw [← hr]
    exact List.reverse_reverse l

/-- Parsing a list line whose marker is an arbitrary digit run. -/
theorem parseListLine_digits (m : Str) (hm1 : m ≠ []) (hm : m.all isDigit = true) :
    parseListLine (m ++ lit ". foo") = some (0, m, lit "foo") := by
  cases m with
  | nil => exact absurd rfl hm1
  | cons d m' =>
    simp only [List.all_cons, Bool.and_eq_true] at hm
    obtain ⟨hd, hm'⟩ := hm
    have hb1 := digit_ne d hd '-' (by decide)
    have hb2 := digit_ne d hd '+' (by decide)
    have hb3 := digit_ne d hd '*' (by decide)
    have hsp : (d :: (m' ++ lit ". foo")).takeWhile (fun c => decide (c = ' ')) = [] := by
      rw [List.takeWhile_cons]
      simp [digit_ne d hd ' ' (by decide)]
    have hds : (d :: (m' ++ lit ". foo")).takeWhile isDigit = d :: m' := by
      rw [List.takeWhile_cons]
      simp only [hd, if_true]
      rw [takeWhile_all_append isDigit m' (lit ". foo") hm']
      have h0 : (lit ". foo").takeWhile isDigit = [] := by decide
      rw [h0, List.append_nil]
    have hdrop : (d :: (m' ++ lit ". foo")).drop (d :: m').length = lit ". foo" := by
      simp only [List.length_cons, List.drop_succ_cons]
      exact List.drop_left m' _
    have hfoo : lit ". foo" = '.' :: ' ' :: 'f' :: 'o' :: 'o' :: [] := rfl
    simp only [parseListLine, parseListLine1, List.cons_append, hsp,
      List.length_nil, List.drop_zero, hds]
    rw [if_neg (by simp [hb1, hb2, hb3])]
    rw [if_neg (List.cons_ne_nil d m')]
    rw [hdrop, hfoo]
    rfl

/-- Splitting a failed occurrence search at a cons cell. -/
theorem containsSub_cons (pat : Str) (c : Char) (rest : Str)
    (h : containsSub pat (c :: rest) = false) :
    pat.isPrefixOf (c :: rest) = false ∧ containsSub pat rest = false := by
  rw [containsSub, findSub] at h
  by_cases hp : pat.isPrefixOf (c :: rest)
  · rw [if_pos hp] at h
    cases h
  · refine ⟨by simp only [Bool.not_eq_true] at hp; exact hp, ?_⟩
    rw [if_neg hp] at h
    rw [containsSub]
    cases hf : findSub pat rest with
    | none => rfl
    | some p =>
      rw [hf] at h
      cases h

/-- The value rewrite walks over a character that opens no match. -/
theorem spanValueGo_skip (fuel : Nat) (c : Char) (rest : Str)
    (h : spanPrefixPat.isPrefixOf (c :: rest) = false) :
    spanValueGo (fuel + 1) (c :: rest) = c :: spanValueGo fuel rest := by
  rw [spanValueGo]
  simp [h]

/-- The value rewrite is the identity when the marker pattern occurs
nowhere in the text. -/
theorem spanValueGo_id (fuel : Nat) : ∀ l : Str,
    containsSub spanPrefixPat l = false → spanValueGo fuel l = l := by
  induction fuel with
  | zero => intro l _; rfl
  | succ f ih =>
    intro l hl
    cases l with
    | nil => rfl
    | cons c rest =>
      obtain ⟨h1, h2⟩ := containsSub_cons _ c rest hl
      rw [spanValueGo_skip f c rest h1, ih rest h2]

/-- The value rewrite turns a hidden index marker with an arbitrary
digit run into an explicit value attribute. -/
theorem spanValueGo_match (fuel : Nat) (m rest : Str) (hm1 : m ≠ [])
    (hm : m.all isDigit = true) :
    spanValueGo (fuel + 1) (spanPrefixPat ++ (m ++ (lit "\"></span>" ++ rest))) =
      lit "<li value=\"" ++ m ++ lit "\">" ++ spanValueGo fuel rest := by
  have hpre : spanPrefixPat.isPrefixOf
      (spanPrefixPat ++ (m ++ (lit "\"></span>" ++ rest))) = true := by
    rw [List.isPrefixOf_iff_prefix]
    exact List.prefix_append _ _
  have hdrop : (spanPrefixPat ++ (m ++ (lit "\"></span>" ++ rest))).drop
      spanPrefixPat.length = m ++ (lit "\"></span>" ++ rest) :=
    List.drop_left _ _
  have hds : (m ++ (lit "\"></span>" ++ rest)).takeWhile isDigit = m := by
    rw [takeWhile_all_append isDigit m _ hm]
    have h0 : (lit "\"></span>" ++ rest).takeWhile isDigit = [] := by
      have hcons : lit "\"></span>" ++ rest = '"' :: (lit "></span>" ++ rest) := rfl
      rw [hcons, List.takeWhile_cons]
      have hq : isDigit '"' = false := by decide
      simp [hq]
    rw [h0, List.append_nil]
  have hdrop2 : (m ++ (lit "\"></span>" ++ rest)).drop m.length =
      lit "\"></span>" ++ rest := List.drop_left _ _
  have hcl : (lit "\"></span>").isPrefixOf (lit "\"></span>" ++ rest) = true := by
    rw [List.isPrefixOf_iff_prefix]
    exact List.prefix_append _ _
  have hdrop9 : (lit "\"></span>" ++ rest).drop 9 = rest := by
    have h9 : (9 : Nat) = (lit "\"></span>").length := rfl
    rw [h9]
    exact List.drop_left _ _
  simp only [spanValueGo, hdrop, hds, hdrop2, hpre, hcl, hdrop9]
  rw [if_pos (by simp [hm1])]

/-- The value rewrite applied to a one-item ordered list body: four skip
steps over the list opener, the marker rewrite, then no further match. -/
theorem spanValueGo_ol (k : Nat) (m : Str) (hm1 : m ≠ [])
    (hm : m.all isDigit = true) :
    spanValueGo (k + 5)
      ('<' :: 'o' :: 'l' :: '>' ::
        (spanPrefixPat ++ (m ++ (lit "\"></span>" ++ lit "foo</li></ol>")))) =
    lit "<ol><li value=\"" ++ (m ++ lit "\">foo</li></ol>") := by
  have e1 : k + 5 = (k + 4) + 1 := rfl
  rw [e1, spanValueGo_skip _ '<' _ (by rfl)]
  have e2 : k + 4 = (k + 3) + 1 := rfl
  rw [e2, spanValueGo_skip _ 'o' _ (by rfl)]
  have e3 : k + 3 = (k + 2) + 1 := rfl
  rw [e3, spanValueGo_skip _ 'l' _ (by rfl)]
  have e4 : k + 2 = (k + 1) + 1 := rfl
  rw [e4, spanValueGo_skip _ '>' _ (by rfl)]
  rw [spanValueGo_match k m _ hm1 hm]
  rw [spanValueGo_id k _ (by decide)]
  simp only [List.append_assoc]
  rfl

/-- C9: the literal numeric marker of an ordered list item is emitted as
the explicit value of the rendered item, for an arbitrary digit-run
marker; the two-item pipeline scenario shows items are not renumbered by
position. -/
theorem ordered_marker_value :
    (∀ m : Str, m ≠ [] → m.all isDigit = true →
       listBlockHtml (m ++ lit ". foo") =
         lit "<ol><li value=\"" ++ (m ++ lit "\">foo</li></ol>")) ∧
    markdownToHtml (lit "5. a" ++ '\n' :: lit "9. b") =
      lit "<ol><li value=\"5\">a</li><li value=\"9\">b</li></ol>" := by
  refine ⟨?_, by decide⟩
  intro m hm1 hm
  have hlast : (m ++ lit ". foo").getLast? = some 'o' := by
    rw [List.getLast?_append_of_ne_nil m (by decide)]
    rfl
  have htrim : jsTrimEnd (m ++ lit ". foo") = m ++ lit ". foo" :=
    jsTrimEnd_of_last_not_ws _ 'o' hlast (by decide)
  have hnl : ∀ c ∈ (m ++ lit ". foo"), c ≠ '\n' := by
    intro c hc
    rw [List.mem_append] at hc
    cases hc with
    | inl h =>
      have hd : isDigit c = true := by
        have := List.all_eq_true.mp hm c h
        simpa using this
      exact digit_ne c hd '\n' (by decide)
    | inr h =>
      have hcm : c ∈ ['.', ' ', 'f', 'o', 'o'] := h
      simp only [List.mem_cons, List.mem_singleton] at hcm
      rcases hcm with rfl | rfl | rfl | rfl | rfl | hcm
      · decide
      · decide
      · decide
      · decide
      · decide
      · cases hcm
  have hsplit : splitLines (m ++ lit ". foo") = [m ++ lit ". foo"] :=
    splitLines_no_newline _ hnl
  have hparse := parseListLine_digits m hm1 hm
  have hstep : listStep [] (m ++ lit ". foo") =
      (lit "<ol><li>" ++ (mdIndexSpan m ++ lit "foo"), [⟨0, lit "ol"⟩]) := by
    simp only [listStep, hparse]
    simp [closeFrames, hm1, hm]
    rfl
  simp only [listBlockHtml, htrim, hsplit]
  rw [listFold, hstep]
  have hshape : (lit "<ol><li>" ++ (mdIndexSpan m ++ lit "foo"), ([⟨0, lit "ol"⟩] : List Frame)).1 ++
      listFold (lit "<ol><li>" ++ (mdIndexSpan m ++ lit "foo"), ([⟨0, lit "ol"⟩] : List Frame)).2 [] =
      '<' :: 'o' :: 'l' :: '>' ::
        (spanPrefixPat ++ (m ++ (lit "\"></span>" ++ lit "foo</li></ol>"))) := by
    simp only [mdIndexSpan, spanPrefixPat, listFold, closeAllFrames, List.append_assoc]
    rfl
  rw [hshape]
  obtain ⟨k, hk⟩ : ∃ k,
      ('<' :: 'o' :: 'l' :: '>' ::
        (spanPrefixPat ++ (m ++ (lit "\"></span>" ++ lit "foo</li></ol>")))).length = k + 5 := by
    have hpat1 : 1 ≤ spanPrefixPat.length := by decide
    refine ⟨(spanPrefixPat ++ (m ++ (lit "\"></span>" ++ lit "foo</li></ol>"))).length - 1, ?_⟩
    simp only [List.length_cons, List.length_append]
    simp only [List.length_append] at hpat1
    omega
  rw [hk]
  exact spanValueGo_ol k m hm1 hm

/-- C9, witness: the general lemma applied to the marker five. -/
theorem ordered_marker_value_witness :
    listBlockHtml (lit "5" ++ lit ". foo") =
      lit "<ol><li value=\"" ++ (lit "5" ++ lit "\">foo</li></ol>") :=
  ordered_marker_value.1 (lit "5") (by decide) (by decide)

/-- C5, counterexample: on a line whose two markers are separated by two
spaces, the classifier of the code assigns level one, while the marker
count ignoring interleaved whitespace is two. -/
theorem quote_level_counterexample :
    (classifyQuoteLine (lit "&gt;  &gt; a")).level = 1 ∧
    specQuoteLevelOf (lit "&gt;  &gt; a") = 2 := by decide

/-- A failed leading marker makes the count zero at any fuel. -/
theorem quoteMarkerCount_zero (fuel : Nat) (l : Str)
    (h : gtTok.isPrefixOf l = false) : quoteMarkerCount fuel l = (0, l) := by
  cases fuel with
  | zero => rfl
  | succ f => simp [quoteMarkerCount, h]

/-- The marker count of a built marker run equals the number of markers,
whenever the content neither starts with a marker nor hides one behind a
single leading whitespace character. -/
theorem quoteMarkerCount_run : ∀ (ws : List (Option Char)) (fuel : Nat) (rest : Str),
    ws.length ≤ fuel →
    (∀ c, some c ∈ ws → isJsWs c = true) →
    gtTok.isPrefixOf rest = false →
    (∀ c r2, rest = c :: r2 → isJsWs c = true → gtTok.isPrefixOf r2 = false) →
    (quoteMarkerCount fuel (markerRun ws rest)).1 = ws.length := by
  intro ws
  induction ws with
  | nil =>
    intro fuel rest _ _ h1 _
    rw [markerRun, quoteMarkerCount_zero fuel rest h1]
    rfl
  | cons w ws ih =>
    intro fuel rest hfuel hws h1 h2
    cases fuel with
    | zero => simp at hfuel
    | succ f =>
      have hf : ws.length ≤ f := by simpa using hfuel
      have hpre : gtTok.isPrefixOf (markerRun (w :: ws) rest) = true := by
        rw [markerRun, List.isPrefixOf_iff_prefix]
        exact List.prefix_append _ _
      have hdrop : (markerRun (w :: ws) rest).drop 4 =
          optChar w ++ markerRun ws rest := by
        rw [markerRun]
        have h4 : (4 : Nat) = gtTok.length := rfl
        rw [h4]
        exact List.drop_left _ _
      have hws2 : ∀ c, some c ∈ ws → isJsWs c = true :=
        fun c hc => hws c (by simp [hc])
      have hmain : (quoteMarkerCount f (markerRun ws rest)).1 = ws.length :=
        ih f rest hf hws2 h1 h2
      rw [quoteMarkerCount]
      simp only [hpre, if_true, hdrop]
      cases w with
      | some c =>
        have hc : isJsWs c = true := hws c (by simp)
        simp only [optChar, List.singleton_append, hc, if_true]
        rw [hmain]
        simp
      | none =>
        simp only [optChar, List.nil_append]
        cases hwsc : ws with
        | cons v vs =>
          have hform : markerRun (v :: vs) rest =
              '&' :: ('g' :: 't' :: ';' :: (optChar v ++ markerRun vs rest)) := rfl
          rw [hwsc] at hmain
          rw [hform]
          have hamp : isJsWs '&' = false := by decide
          simp only [hamp, Bool.false_eq_true, if_false]
          rw [← hform, hmain]
          simp [hwsc]
        | nil =>
          rw [markerRun]
          cases hrest : rest with
          | nil =>
            simp [quoteMarkerCount_zero f [] (by rfl)]
          | cons c rs =>
            by_cases hc : isJsWs c = true
            · simp only [hc, if_true]
              have hrs : gtTok.isPrefixOf rs = false := h2 c rs hrest hc
              rw [quoteMarkerCount_zero f rs hrs]
              simp
            · simp only [if_neg hc]
              have hr : gtTok.isPrefixOf (c :: rs) = false := hrest ▸ h1
              rw [quoteMarkerCount_zero f (c :: rs) hr]
              simp

/-- The level stored by the classifier is the raw marker count. -/
theorem classify_level_eq_count (l : Str) :
    (classifyQuoteLine l).level = (quoteMarkerCount (l.length + 1) l).1 := by
  rw [classifyQuoteLine]
  by_cases h : (quoteMarkerCount (l.length + 1) l).1 = 0
  · simp [h]
  · simp [h]

/-- A marker run is at least as long as its marker count. -/
theorem markerRun_length_ge (ws : List (Option Char)) (rest : Str) :
    ws.length ≤ (markerRun ws rest).length := by
  induction ws with
  | nil => simp [markerRun]
  | cons w ws ih =>
    rw [markerRun]
    simp only [List.length_append, List.length_cons]
    have h4 : gtTok.length = 4 := rfl
    omega

/-- C5, amended: the two-line scenario produces exactly two levels of
blockquote wrapping, and in general the quote level of a line equals the
count of its leading markers when each marker is followed by at most one
whitespace character (markers behind longer whitespace runs are
classified into the content instead). -/
theorem quote_depth_amended :
    markdownToHtml (lit "&gt; x" ++ '\n' :: lit "&gt;&gt;&gt; a") =
      lit "<blockquote><p>x</p>" ++ '\n' ::
        lit "<blockquote><p>a</p></blockquote></blockquote>" ∧
    (∀ (ws : List (Option Char)) (rest : Str),
       (∀ c, some c ∈ ws → isJsWs c = true) →
       gtTok.isPrefixOf rest = false →
       (∀ c r2, rest = c :: r2 → isJsWs c = true → gtTok.isPrefixOf r2 = false) →
       (classifyQuoteLine (markerRun ws rest)).level = ws.length) := by
  refine ⟨by decide, ?_⟩
  intro ws rest hws h1 h2
  rw [classify_level_eq_count]
  exact quoteMarkerCount_run ws ((markerRun ws rest).length + 1) rest
    (Nat.le_trans (markerRun_length_ge ws rest) (Nat.le_succ _)) hws h1 h2

/-- C5, witness: a run of two markers, the first followed by one space,
classifies at level two. -/
theorem quote_depth_amended_witness :
    (classifyQuoteLine (markerRun [some ' ', none] (lit "b"))).level = 2 :=
  quote_depth_amended.2 [some ' ', none] (lit "b")
    (by
      intro c hc
      simp only [List.mem_cons, List.not_mem_nil, or_false] at hc
      rcases hc with h | h
      · have hch : c = ' ' := by injection h
        subst hch
        decide
      · cases h)
    (by decide)
    (by
      intro c r2 he hw
      have hch : c = 'b' := by
        injection he with h h2
        exact h.symm
      subst hch
      exact absurd hw (by decide))

/-- Rendering a one-line fenced code body with no language hint: the
content is HTML-escaped and wrapped in the plaintext pre/code element. -/
theorem codeBlockHtml_plain (t : Str)
    (hnl : ∀ c ∈ t, c ≠ '\n') (hcr : ∀ c ∈ t, c ≠ '\r')
    (hblank : jsTrim t ≠ []) (hsp : t.head? ≠ some ' ') :
    codeBlockHtml [] [] (t ++ ['\n']) =
      lit "<pre class=\"language-plaintext\"><code>" ++ escapeHtml t ++
      lit "</code></pre>" := by
  have hne : t ≠ [] := by
    intro h0
    exact hblank (by rw [h0]; rfl)
  have hfil : (t ++ ['\n']).filter (fun c => c ≠ '\r') = t ++ ['\n'] := by
    refine List.filter_eq_self.mpr ?_
    intro a ha
    rcases List.mem_append.mp ha with h1 | h2
    · simp [hcr a h1]
    · simp at h2
      subst h2
      decide
  have hsplit : splitLines (t ++ ['\n']) = [t, []] := splitLines_append_newline t hnl
  have hbl : isBlankLine t = false := by
    simp [isBlankLine, hblank]
  have hbe : isBlankLine ([] : Str) = true := rfl
  have hdbe : dropBlankEnds [t, []] = [t] := by
    simp [dropBlankEnds, List.dropWhile_cons, hbl, hbe]
  have hls : leadingSpaces t = 0 := by
    cases ht : t with
    | nil => exact absurd ht hne
    | cons c t2 =>
      have hcs : c ≠ ' ' := by
        intro h0
        rw [ht, h0] at hsp
        exact hsp rfl
      simp [leadingSpaces, List.takeWhile_cons, hcs]
  have hmin : minIndentOf [t] = 0 := by
    simp [minIndentOf, List.foldl_cons, List.foldl_nil, hbl, hls]
  have hjoin : joinNL [t] = t := by
    simp [joinNL]
  simp only [codeBlockHtml, hfil, hsplit, hdbe, hmin, List.map_cons, List.map_nil,
    List.drop_zero, hjoin]
  rfl

/-- The backtick scanner on a fence-wrapped one-line body yields exactly
one code-block placeholder carrying the rendered block. -/
theorem pbGo_fence (t : Str)
    (hbt : ∀ c ∈ t, c ≠ '`') (hnl : ∀ c ∈ t, c ≠ '\n')
    (hcr : ∀ c ∈ t, c ≠ '\r') (hblank : jsTrim t ≠ []) (hsp : t.head? ≠ some ' ')
    (fuel : Nat) :
    pbGo [] (fuel + 1) (fenceWrap t) 0 0 =
      ⟨codePh 0,
       [(codePh 0, lit "<pre class=\"language-plaintext\"><code>" ++ escapeHtml t ++
         lit "</code></pre>")], []⟩ := by
  have hshape : fenceWrap t = lit "```" ++ ('\n' :: (t ++ '\n' :: lit "```")) := by
    simp [fenceWrap]
  have hpre : (lit "```").isPrefixOf (fenceWrap t) = true := by
    rw [hshape]
    exact List.isPrefixOf_iff_prefix.mpr (List.prefix_append _ _)
  have hdrop3 : (fenceWrap t).drop 3 = '\n' :: (t ++ '\n' :: lit "```") := by
    rw [hshape]
    have h3 : (3 : Nat) = (lit "```").length := rfl
    rw [h3, List.drop_left]
  have hws : isJsWs '\n' = true := rfl
  have hfind := findSub_fence t hbt
  have hcbh := codeBlockHtml_plain t hnl hcr hblank hsp
  obtain ⟨hn1, hn2, hn3⟩ := pbGo_nil [] fuel 1 0
  rw [pbGo.eq_def]
  simp only [hpre, if_true, hdrop3, List.takeWhile_cons, hws, Bool.not_true,
    Bool.false_eq_true, if_false, List.length_nil, List.drop_zero, List.head?_cons,
    List.tail_cons, hfind, hcbh, hn1, hn2, hn3, List.append_nil]
  simp [hfind, hcbh, hn1, hn2, hn3]

/-- The backtick scanner on a backtick-wrapped span yields exactly one
inline-code placeholder carrying the raw span content. -/
theorem pbGo_span (t : Str)
    (hbt : ∀ c ∈ t, c ≠ '`') (hne : t ≠ []) (fuel : Nat) :
    pbGo [] (fuel + 1) (backtickWrap t) 0 0 =
      ⟨inlinePh 0, [], [(inlinePh 0, t)]⟩ := by
  obtain ⟨c, t2, rfl⟩ : ∃ c t2, t = c :: t2 := by
    cases t with
    | nil => exact absurd rfl hne
    | cons c t2 => exact ⟨c, t2, rfl⟩
  have hc : c ≠ '`' := hbt c (by simp)
  have hcb : ('`' == c) = false := beq_eq_false_iff_ne.mpr (Ne.symm hc)
  have hshape : backtickWrap (c :: t2) = '`' :: c :: (t2 ++ ['`']) := rfl
  have h1 : (lit "```").isPrefixOf ('`' :: c :: (t2 ++ ['`'])) = false := by
    have he : (lit "```").isPrefixOf ('`' :: c :: (t2 ++ ['`'])) =
        ('`' == '`' && ('`' == c && (lit "`").isPrefixOf (t2 ++ ['`']))) := rfl
    rw [he]
    simp [hcb]
  have h2 : (lit "``").isPrefixOf ('`' :: c :: (t2 ++ ['`'])) = false := by
    have he : (lit "``").isPrefixOf ('`' :: c :: (t2 ++ ['`'])) =
        ('`' == '`' && ('`' == c && (lit "").isPrefixOf (t2 ++ ['`']))) := rfl
    rw [he]
    simp [hcb]
  have h1p : ¬ (lit "```" <+: '`' :: c :: (t2 ++ ['`'])) := by
    rw [← List.isPrefixOf_iff_prefix]
    simp [h1]
  have h2p : ¬ (lit "``" <+: '`' :: c :: (t2 ++ ['`'])) := by
    rw [← List.isPrefixOf_iff_prefix]
    simp [h2]
  have htw : (c :: (t2 ++ ['`'])).takeWhile (fun x => x ≠ '`') = c :: t2 := by
    have hall : (c :: t2).all (fun x => decide (x ≠ '`')) = true := by
      rw [List.all_eq_true]
      intro x hx
      simpa using hbt x hx
    have := takeWhile_all_append (fun x => decide (x ≠ '`')) (c :: t2) ['`'] hall
    simpa [List.cons_append] using this
  have hdropc : (c :: (t2 ++ ['`'])).drop (c :: t2).length = ['`'] := by
    have := List.drop_left (c :: t2) ['`']
    simpa [List.cons_append] using this
  have htw2 : List.takeWhile (fun x => !decide (x = '`')) (c :: (t2 ++ ['`'])) = c :: t2 := by
    simpa only [decide_not] using htw
  have hdropc2 : List.drop (t2.length + 1) (c :: (t2 ++ ['`'])) = ['`'] := by
    simpa using hdropc
  obtain ⟨hn1, hn2, hn3⟩ := pbGo_nil [] fuel 0 1
  rw [hshape, pbGo.eq_def]
  simp only [h1, Bool.false_eq_true, if_false, h2]
  simp [h1, h2, h1p, h2p, htw, htw2, hdropc, hdropc2, hn1, hn2, hn3]

/-- Reassembling a buffer that is exactly the code-block placeholder
substitutes the rendered block, and the result needs no trimming. -/
theorem wrapup_fence (t : Str) (hds : ∀ c ∈ t, c ≠ '$') :
    jsTrim (reassemble
        [(codePh 0, lit "<pre class=\"language-plaintext\"><code>" ++ escapeHtml t ++
          lit "</code></pre>")] [] [] (codePh 0)) =
      lit "<pre class=\"language-plaintext\"><code>" ++ escapeHtml t ++
      lit "</code></pre>" := by
  have hFd : ∀ x ∈ lit "<pre class=\"language-plaintext\"><code>" ++ escapeHtml t ++
      lit "</code></pre>", x ≠ '$' := by
    intro x hx
    rcases List.mem_append.mp hx with h1 | h2
    · rcases List.mem_append.mp h1 with h3 | h4
      · exact (by decide : ∀ y ∈ lit "<pre class=\"language-plaintext\"><code>", y ≠ '$') x h3
      · exact escapeHtml_no_dollar t hds x h4
    · exact (by decide : ∀ y ∈ lit "</code></pre>", y ≠ '$') x h2
  have hfind : findSub (codePh 0) (codePh 0) = some ([], []) := by decide
  have hsh : (lit "<pre class=\"language-plaintext\"><code>" ++ escapeHtml t ++
      lit "</code></pre>") = '<' :: (lit "pre class=\"language-plaintext\"><code>" ++
      escapeHtml t ++ lit "</code></pre>") := rfl
  have hlt : isJsWs '<' = false := rfl
  have hhead : jsTrimStart (lit "<pre class=\"language-plaintext\"><code>" ++
      escapeHtml t ++ lit "</code></pre>") =
      lit "<pre class=\"language-plaintext\"><code>" ++ escapeHtml t ++
      lit "</code></pre>" := by
    rw [jsTrimStart, hsh, List.dropWhile_cons]
    simp [hlt]
  have hlast : (lit "<pre class=\"language-plaintext\"><code>" ++ escapeHtml t ++
      lit "</code></pre>").getLast? = some '>' := by
    rw [List.getLast?_append_of_ne_nil _ (by decide)]
    decide
  simp only [reassemble, List.foldl_cons, List.foldl_nil]
  rw [jsReplaceOnce, hfind]
  simp only [List.nil_append, List.append_nil]
  rw [dollarSub_id _ _ _ _ hFd]
  rw [jsTrim, hhead, jsTrimEnd_of_last_not_ws _ '>' hlast (by decide)]

/-- Reassembling the paragraph-wrapped inline-code placeholder
substitutes the escaped span inside the paragraph, and the result needs
no trimming. -/
theorem wrapup_span (t : Str) (hds : ∀ c ∈ t, c ≠ '$') :
    jsTrim (reassemble [] [(inlinePh 0, t)] [] (lit "<p><!--inlinecode_0--></p>")) =
      lit "<p><code>" ++ escapeHtml t ++ lit "</code></p>" := by
  have hrd : ∀ x ∈ lit "<code>" ++ escapeHtml t ++ lit "</code>", x ≠ '$' := by
    intro x hx
    rcases List.mem_append.mp hx with h1 | h2
    · rcases List.mem_append.mp h1 with h3 | h4
      · exact (by decide : ∀ y ∈ lit "<code>", y ≠ '$') x h3
      · exact escapeHtml_no_dollar t hds x h4
    · exact (by decide : ∀ y ∈ lit "</code>", y ≠ '$') x h2
  have hfind : findSub (inlinePh 0) (lit "<p><!--inlinecode_0--></p>") =
      some (lit "<p>", lit "</p>") := by decide
  simp only [reassemble, List.foldl_cons, List.foldl_nil]
  rw [jsReplaceOnce, hfind]
  show jsTrim (lit "<p>" ++ dollarSub (inlinePh 0) (lit "<p>") (lit "</p>")
      (lit "<code>" ++ escapeHtml t ++ lit "</code>") ++ lit "</p>") =
    lit "<p><code>" ++ escapeHtml t ++ lit "</code></p>"
  rw [dollarSub_id _ _ _ _ hrd]
  have hsh : (lit "<p>" ++ (lit "<code>" ++ escapeHtml t ++ lit "</code>") ++
      lit "</p>") = '<' :: (lit "p>" ++ (lit "<code>" ++ escapeHtml t ++
      lit "</code>") ++ lit "</p>") := rfl
  have hlt : isJsWs '<' = false := rfl
  have hhead : jsTrimStart (lit "<p>" ++ (lit "<code>" ++ escapeHtml t ++
      lit "</code>") ++ lit "</p>") =
      lit "<p>" ++ (lit "<code>" ++ escapeHtml t ++ lit "</code>") ++ lit "</p>" := by
    rw [jsTrimStart, hsh, List.dropWhile_cons]
    simp [hlt]
  have hlast : (lit "<p>" ++ (lit "<code>" ++ escapeHtml t ++ lit "</code>") ++
      lit "</p>").getLast? = some '>' := by
    rw [List.getLast?_append_of_ne_nil _ (by decide)]
    decide
  rw [jsTrim, hhead, jsTrimEnd_of_last_not_ws _ '>' hlast (by decide)]
  simp only [List.append_assoc]
  rfl

/-- One pipeline execution on a fence-wrapped body reduces to the
rendered code block, for any blockquote recursion function. -/
theorem passes_fence (recur : Str → Str) (t : Str)
    (hbt : ∀ c ∈ t, c ≠ '`') (hnl : ∀ c ∈ t, c ≠ '\n') (hcr : ∀ c ∈ t, c ≠ '\r')
    (hbs : ∀ c ∈ t, c ≠ '\\') (hds : ∀ c ∈ t, c ≠ '$')
    (hblank : jsTrim t ≠ []) (hsp : t.head? ≠ some ' ') :
    passes recur (fenceWrap t) =
      lit "<pre class=\"language-plaintext\"><code>" ++ escapeHtml t ++
      lit "</code></pre>" := by
  have hescAll : ∀ c ∈ fenceWrap t, c ≠ '\\' := by
    intro c hc
    rw [show fenceWrap t = lit "```" ++ ('\n' :: (t ++ '\n' :: lit "```")) from by
      simp [fenceWrap]] at hc
    rcases List.mem_append.mp hc with h1 | h2
    · exact (by decide : ∀ y ∈ lit "```", y ≠ '\\') c h1
    · rcases List.mem_cons.mp h2 with rfl | h3
      · decide
      · rcases List.mem_append.mp h3 with h4 | h5
        · exact hbs c h4
        · rcases List.mem_cons.mp h5 with rfl | h6
          · decide
          · exact (by decide : ∀ y ∈ lit "```", y ≠ '\\') c h6
  have hesc : escapePassGo (fenceWrap t) 0 = (fenceWrap t, []) :=
    escapePassGo_id 0 _ hescAll
  have hpb := pbGo_fence t hbt hnl hcr hblank hsp ((fenceWrap t).length)
  simp only [passes, hesc, hpb]
  exact wrapup_fence t hds

/-- One pipeline execution on a backtick-wrapped span reduces to the
paragraph-wrapped escaped code element, for any blockquote recursion
function. -/
theorem passes_span (recur : Str → Str) (t : Str)
    (hbt : ∀ c ∈ t, c ≠ '`') (hbs : ∀ c ∈ t, c ≠ '\\') (hds : ∀ c ∈ t, c ≠ '$')
    (hne : t ≠ []) :
    passes recur (backtickWrap t) =
      lit "<p><code>" ++ escapeHtml t ++ lit "</code></p>" := by
  have hescAll : ∀ c ∈ backtickWrap t, c ≠ '\\' := by
    intro c hc
    rw [show backtickWrap t = '`' :: (t ++ ['`']) from rfl] at hc
    rcases List.mem_cons.mp hc with rfl | h1
    · decide
    · rcases List.mem_append.mp h1 with h2 | h3
      · exact hbs c h2
      · rcases List.mem_cons.mp h3 with rfl | h4
        · decide
        · cases h4
  have hesc : escapePassGo (backtickWrap t) 0 = (backtickWrap t, []) :=
    escapePassGo_id 0 _ hescAll
  have hpb := pbGo_span t hbt hne ((backtickWrap t).length)
  simp only [passes, hesc, hpb]
  exact wrapup_span t hds

/-- C3: content tokenized as code is isolated from the markdown passes.
In general, any backtick-free one-line body (with no backslash, dollar,
carriage return, leading space or blank content, so that the escape
pass, the dollar patterns of the reassembly substitution and the fence
dedent logic are not in play) placed in a fenced block renders exactly
as the HTML-escaped body inside the plaintext pre/code element, and
placed in a single-backtick span renders exactly as the HTML-escaped
body inside a paragraph-wrapped code element; in particular every
markdown trigger sequence of the listed classes appears HTML-escaped
and otherwise unmodified, never interpreted as markdown structure. -/
theorem code_isolation :
    (∀ t : Str,
      (∀ c ∈ t, c ≠ '`' ∧ c ≠ '\n' ∧ c ≠ '\r' ∧ c ≠ '\\' ∧ c ≠ '$') →
      jsTrim t ≠ [] → t.head? ≠ some ' ' →
      markdownToHtml (fenceWrap t) =
        lit "<pre class=\"language-plaintext\"><code>" ++ escapeHtml t ++
        lit "</code></pre>" ∧
      markdownToHtml (backtickWrap t) =
        lit "<p><code>" ++ escapeHtml t ++ lit "</code></p>") ∧
    (∀ t ∈ triggerSequences,
      markdownToHtml (fenceWrap t) =
        lit "<pre class=\"language-plaintext\"><code>" ++ escapeHtml t ++
        lit "</code></pre>" ∧
      markdownToHtml (backtickWrap t) =
        lit "<p><code>" ++ escapeHtml t ++ lit "</code></p>") := by
  constructor
  · intro t h hblank hsp
    have hbt : ∀ c ∈ t, c ≠ '`' := fun c hc => (h c hc).1
    have hnl : ∀ c ∈ t, c ≠ '\n' := fun c hc => (h c hc).2.1
    have hcr : ∀ c ∈ t, c ≠ '\r' := fun c hc => (h c hc).2.2.1
    have hbs : ∀ c ∈ t, c ≠ '\\' := fun c hc => (h c hc).2.2.2.1
    have hds : ∀ c ∈ t, c ≠ '$' := fun c hc => (h c hc).2.2.2.2
    have hne : t ≠ [] := by
      intro h0
      exact hblank (by rw [h0]; rfl)
    constructor
    · rw [markdownToHtml, markdownToHtmlF]
      exact passes_fence _ t hbt hnl hcr hbs hds hblank hsp
    · rw [markdownToHtml, markdownToHtmlF]
      exact passes_span _ t hbt hbs hds hne
  · decide

/-- C3, witness: the double-star emphasis marker satisfies the side
conditions and renders escaped inside a fence and inside a backtick
span; it is also covered by the trigger-sequence list. -/
theorem code_isolation_witness :
    ((∀ c ∈ lit "**", c ≠ '`' ∧ c ≠ '\n' ∧ c ≠ '\r' ∧ c ≠ '\\' ∧ c ≠ '$') ∧
      jsTrim (lit "**") ≠ [] ∧ (lit "**").head? ≠ some ' ') ∧
    markdownToHtml (fenceWrap (lit "**")) =
      lit "<pre class=\"language-plaintext\"><code>" ++ escapeHtml (lit "**") ++
      lit "</code></pre>" ∧
    markdownToHtml (backtickWrap (lit "**")) =
      lit "<p><code>" ++ escapeHtml (lit "**") ++ lit "</code></p>" ∧
    markdownToHtml (fenceWrap (lit "~~x~~")) =
      lit "<pre class=\"language-plaintext\"><code>" ++ escapeHtml (lit "~~x~~") ++
      lit "</code></pre>" :=
  ⟨⟨by decide, by decide, by decide⟩,
   (code_isolation.1 (lit "**") (by decide) (by decide) (by decide)).1,
   (code_isolation.1 (lit "**") (by decide) (by decide) (by decide)).2,
   (code_isolation.2 (lit "~~x~~") (by decide)).1⟩

end LiteMark
